import Mathlib

/-!
# Chat server: session registry, message dispatch and wire decoding

A shallow embedding of `ChatServer.cpp`, `ClientHandler.{h,cpp}` and `Message.cpp`.

Conventions of the embedding

* `std::string` is a Lean `String`; one `Char` of the model stands for one C++ `char`.
  Positions and lengths are counted in characters, `npos` is `none`.
* A `ClientHandler*` (and the `shared_ptr` owning it) is the address of the object, a `Nat`;
  the objects themselves live in `ChatServer.heap`.  `nullptr` is `none`.
* `std::set<std::shared_ptr<ClientHandler>>` is a strictly increasing list of addresses
  (`PtrSet`), `std::map<std::string, std::shared_ptr<ClientHandler>>` is a list of entries with
  strictly increasing keys (`NickMap`); both are iterated in that order, as in C++.
* `ClientHandler::sendMessage` performs one `send` of `"\r" + msg + "\n"`; the model appends the
  pair (receiving object, bytes) to the transcript `ChatServer.sent`.
* Writes to `std::cout`, `std::cerr` and the log file are not modelled; mutexes are not modelled:
  every operation runs to completion on the state it is given.
* `ClientHandler::run` is fed what `select` and `recv` report, pass by pass; the prompt and the
  clear-line sequence are written with `send` directly and are not part of the transcript.
* `int` is 32 bit two's complement, `size_t` arithmetic is only used where it cannot wrap.
-/

namespace Chat

/-! ## Part 1: the model

### `std::string` and the standard library calls -/

/-- Position of the first `c` in a list of characters. -/
def findChar (c : Char) : List Char → Option Nat
  | [] => none
  | x :: xs => if x = c then some 0 else (findChar c xs).map (· + 1)

/-- The call `s.find(c, pos)`: index of the first `c` at or after `pos`, `none` for `npos`. -/
def find (s : String) (c : Char) (pos : Nat) : Option Nat :=
  (findChar c (s.data.drop pos)).map (· + pos)

/-- The exceptions the standard library calls of the sources can throw. -/
inductive StdException where
  | invalid_argument
  | out_of_range
deriving DecidableEq, Repr

deriving instance DecidableEq for Except

/-- The call `s.substr(pos, len)`; throws `std::out_of_range` when `pos > size()`. -/
def substr (s : String) (pos len : Nat) : Except StdException String :=
  if pos ≤ s.length then .ok ⟨(s.data.drop pos).take len⟩ else .error .out_of_range

/-- The call `s.substr(pos)`; throws `std::out_of_range` when `pos > size()`. -/
def substrFrom (s : String) (pos : Nat) : Except StdException String :=
  if pos ≤ s.length then .ok ⟨s.data.drop pos⟩ else .error .out_of_range

/-- Position of the first character that is not one of `chars`. -/
def findFirstNotOf (chars : List Char) : List Char → Option Nat
  | [] => none
  | x :: xs => if x ∈ chars then (findFirstNotOf chars xs).map (· + 1) else some 0

/-- The call `s.find_first_not_of(chars)`; `none` for `npos`. -/
def find_first_not_of (s chars : String) : Option Nat := findFirstNotOf chars.data s.data

/-- The call `s.find_last_not_of(chars)`: the search of `find_first_not_of` run from the back;
`none` for `npos`. -/
def find_last_not_of (s chars : String) : Option Nat :=
  (findFirstNotOf chars.data s.data.reverse).map (fun i => s.length - 1 - i)

/-- The test `s.rfind(p, 0) == 0`: a match that starts at position 0, so `s` begins with `p`. -/
def rfindAtZero (s p : String) : Bool := decide (s.data.take p.length = p.data)

/-- The idiom `s.erase(std::remove(s.begin(), s.end(), c), s.end())`. -/
def eraseRemove (s : String) (c : Char) : String := ⟨s.data.filter (fun x => x ≠ c)⟩

/-- The C locale `isspace`. -/
def isspace (c : Char) : Bool :=
  c = ' ' || c = '\t' || c = '\n' || c = '\x0b' || c = '\x0c' || c = '\r'

/-- The C locale `isdigit`. -/
def isdigit (c : Char) : Bool := decide ('0' ≤ c) && decide (c ≤ '9')

/-- Value of a string of decimal digits, most significant digit first. -/
def digitsValue (ds : List Char) : Nat :=
  ds.foldl (fun acc c => 10 * acc + (c.toNat - 48)) 0

/-- Largest value of a 32 bit `int`. -/
def INT_MAX : Int := 2147483647

/-- Smallest value of a 32 bit `int`. -/
def INT_MIN : Int := -2147483648

/-- The sign that `strtol` reads after the leading white space, and the text after it. -/
def stoiSign : List Char → Bool × List Char
  | [] => (false, [])
  | c :: r => if c = '-' then (true, r) else if c = '+' then (false, r) else (false, c :: r)

/-- The call `std::stoi(str)` (base 10, no position argument): leading white space is skipped, an
optional sign is read, then the longest run of digits; whatever follows the digits is ignored.
Without a digit it throws `std::invalid_argument`, with a value outside `int` it throws
`std::out_of_range`. -/
def stoi (str : String) : Except StdException Int :=
  let signed := stoiSign (str.data.dropWhile isspace)
  let ds := signed.2.takeWhile isdigit
  if ds = [] then .error .invalid_argument
  else
    let v : Int := if signed.1 then -(digitsValue ds : Int) else (digitsValue ds : Int)
    if v < INT_MIN ∨ INT_MAX < v then .error .out_of_range else .ok v

/-- The character of a decimal digit. -/
def digitChar (d : Nat) : Char := Char.ofNat (48 + d)

/-- Decimal digits of `n`, most significant first, pushed in front of `acc`. -/
def toDigitsAux : Nat → Nat → List Char → List Char
  | 0, _, acc => acc
  | fuel + 1, n, acc =>
    if n < 10 then digitChar n :: acc
    else toDigitsAux fuel (n / 10) (digitChar (n % 10) :: acc)

/-- Decimal digits of a natural number. -/
def natDigits (n : Nat) : List Char := toDigitsAux (n + 1) n []

/-- The call `std::to_string(int)`. -/
def to_string (n : Int) : String :=
  if n < 0 then ⟨'-' :: natDigits n.natAbs⟩ else ⟨natDigits n.natAbs⟩

/-- Conversion of an out-of-range value to a 32 bit `int` (two's complement wrap-around). -/
def wrapInt (n : Int) : Int := (n + 2147483648) % 4294967296 - 2147483648

/-! ### `std::set` of session addresses -/

/-- Insertion into a strictly increasing list; an element already present is kept. -/
def insertSorted (p : Nat) : List Nat → List Nat
  | [] => [p]
  | q :: rest =>
    if p < q then p :: q :: rest
    else if p = q then q :: rest
    else q :: insertSorted p rest

theorem mem_insertSorted (p x : Nat) (l : List Nat) :
    x ∈ insertSorted p l ↔ x = p ∨ x ∈ l := by
  induction l with
  | nil => simp [insertSorted]
  | cons q rest ih =>
    unfold insertSorted
    split_ifs with h1 h2
    · simp
    · subst h2; simp
    · simp [ih]; tauto

theorem insertSorted_pairwise (p : Nat) (l : List Nat) (h : l.Pairwise (· < ·)) :
    (insertSorted p l).Pairwise (· < ·) := by
  induction l with
  | nil => simp [insertSorted]
  | cons q rest ih =>
    unfold insertSorted
    rw [List.pairwise_cons] at h
    split_ifs with h1 h2
    · refine List.pairwise_cons.2 ⟨?_, List.pairwise_cons.2 h⟩
      intro a ha
      rcases List.mem_cons.1 ha with rfl | ha
      · exact h1
      · exact lt_trans h1 (h.1 a ha)
    · exact List.pairwise_cons.2 h
    · refine List.pairwise_cons.2 ⟨?_, ih h.2⟩
      intro a ha
      rcases (mem_insertSorted p a rest).1 ha with rfl | ha
      · omega
      · exact h.1 a ha

/-- The set `std::set<std::shared_ptr<ClientHandler>>`: addresses in strictly increasing order. -/
structure PtrSet where
  elems : List Nat
  sorted : elems.Pairwise (· < ·)

namespace PtrSet

/-- The empty set. -/
def empty : PtrSet := ⟨[], List.Pairwise.nil⟩

/-- The call `set.insert(p)`. -/
def insert (s : PtrSet) (p : Nat) : PtrSet :=
  ⟨insertSorted p s.elems, insertSorted_pairwise p s.elems s.sorted⟩

/-- The loop of `removeClient`: erase the first element equal to `p`, then stop. -/
def erase (s : PtrSet) (p : Nat) : PtrSet :=
  ⟨s.elems.erase p, s.sorted.sublist (List.erase_sublist p s.elems)⟩

theorem ext_elems {a b : PtrSet} (h : a.elems = b.elems) : a = b := by
  cases a; cases b; cases h; rfl

instance : DecidableEq PtrSet := fun a b =>
  decidable_of_iff (a.elems = b.elems) ⟨ext_elems, fun h => by rw [h]⟩

end PtrSet

/-! ### `std::map` from nickname to session address -/

/-- The lookup `map.find(k)`: the value stored under `k`, `none` for `end()`. -/
def findEntry (k : String) : List (String × Nat) → Option Nat
  | [] => none
  | (k1, v) :: rest => if k1 = k then some v else findEntry k rest

/-- The assignment `map[k] = v` on entries with strictly increasing keys; `std::string` keys are
compared lexicographically, character by character. -/
def insertEntry (k : String) (v : Nat) : List (String × Nat) → List (String × Nat)
  | [] => [(k, v)]
  | (k1, v1) :: rest =>
    if k.data < k1.data then (k, v) :: (k1, v1) :: rest
    else if k = k1 then (k, v) :: rest
    else (k1, v1) :: insertEntry k v rest

/-- The call `map.erase(k)`: every entry stored under `k` goes. -/
def eraseEntry (k : String) (l : List (String × Nat)) : List (String × Nat) :=
  l.filter (fun e => decide (e.1 ≠ k))

/-- Strictly increasing keys: the order of a `std::map`. -/
def KeysSorted (l : List (String × Nat)) : Prop :=
  l.Pairwise (fun a b => a.1.data < b.1.data)

instance (l : List (String × Nat)) : Decidable (KeysSorted l) := by
  unfold KeysSorted; infer_instance

theorem data_ne_of_ne {a b : String} (h : a ≠ b) : a.data ≠ b.data :=
  fun hd => h (String.ext hd)

theorem key_of_mem_insertEntry {k : String} {v : Nat} {e : String × Nat}
    {l : List (String × Nat)} (h : e ∈ insertEntry k v l) : e = (k, v) ∨ e ∈ l := by
  induction l with
  | nil => simpa [insertEntry] using h
  | cons hd rest ih =>
    obtain ⟨k1, v1⟩ := hd
    unfold insertEntry at h
    split_ifs at h with h1 h2
    · simpa using h
    · rcases List.mem_cons.1 h with h | h
      · exact Or.inl h
      · exact Or.inr (List.mem_cons_of_mem _ h)
    · rcases List.mem_cons.1 h with h | h
      · exact Or.inr (h ▸ List.mem_cons_self _ _)
      · rcases ih h with h | h
        · exact Or.inl h
        · exact Or.inr (List.mem_cons_of_mem _ h)

theorem insertEntry_sorted (k : String) (v : Nat) (l : List (String × Nat))
    (hs : KeysSorted l) : KeysSorted (insertEntry k v l) := by
  induction l with
  | nil => simp [insertEntry, KeysSorted]
  | cons hd rest ih =>
    obtain ⟨k1, v1⟩ := hd
    have hs2 := List.pairwise_cons.1 hs
    unfold insertEntry
    split_ifs with h1 h2
    · refine List.pairwise_cons.2 ⟨?_, hs⟩
      intro a ha
      rcases List.mem_cons.1 ha with rfl | ha
      · exact h1
      · exact lt_trans h1 (hs2.1 a ha)
    · subst h2
      exact List.pairwise_cons.2 ⟨hs2.1, hs2.2⟩
    · refine List.pairwise_cons.2 ⟨?_, ih hs2.2⟩
      intro a ha
      rcases key_of_mem_insertEntry ha with rfl | ha
      · exact lt_of_le_of_ne (not_lt.1 h1) (Ne.symm (data_ne_of_ne h2))
      · exact hs2.1 a ha

theorem eraseEntry_sorted (k : String) (l : List (String × Nat)) (hs : KeysSorted l) :
    KeysSorted (eraseEntry k l) :=
  List.Pairwise.sublist (List.filter_sublist l) hs

/-- The map `std::map<std::string, std::shared_ptr<ClientHandler>>`: entries in strictly
increasing key order. -/
structure NickMap where
  entries : List (String × Nat)
  sorted : KeysSorted entries

namespace NickMap

/-- The empty map. -/
def empty : NickMap := ⟨[], List.Pairwise.nil⟩

/-- The lookup `nicknames_.find(k)`; `none` is `end()`, `some p` is an iterator to `(k, p)`. -/
def find (m : NickMap) (k : String) : Option Nat := findEntry k m.entries

/-- The assignment `nicknames_[k] = p`. -/
def insert (m : NickMap) (k : String) (p : Nat) : NickMap :=
  ⟨insertEntry k p m.entries, insertEntry_sorted k p m.entries m.sorted⟩

/-- The call `nicknames_.erase(k)` (also `erase(it)` for the iterator `it` found under `k`). -/
def erase (m : NickMap) (k : String) : NickMap :=
  ⟨eraseEntry k m.entries, eraseEntry_sorted k m.entries m.sorted⟩

/-- The keys in iteration order. -/
def keys (m : NickMap) : List String := m.entries.map Prod.fst

theorem ext_entries {a b : NickMap} (h : a.entries = b.entries) : a = b := by
  cases a; cases b; cases h; rfl

instance : DecidableEq NickMap := fun a b =>
  decidable_of_iff (a.entries = b.entries) ⟨ext_entries, fun h => by rw [h]⟩

end NickMap

/-! ### `Message` -/

/-- Modelled from the spec: the header `MessageType.h` is not among the sources.  A kind is the
`int` tag of the enumeration; the enumerators are the six names `ChatServer::processMessage`
switches on, with pairwise distinct tags (they are `case` labels of one `switch`). -/
structure MessageTypeDecl where
  Broadcast : Int
  Private : Int
  NickChange : Int
  Connect : Int
  Disconnect : Int
  UsersList : Int
  distinct : [Broadcast, Private, NickChange, Connect, Disconnect, UsersList].Nodup

/-- Modelled from the spec: the enumeration with `Broadcast` as tag 0 (the wire value
`"0|alice|hello|"` is a Broadcast) and the other enumerators numbered in the order of the
`switch` of `ChatServer::processMessage`. -/
def MessageType : MessageTypeDecl :=
  ⟨0, 1, 2, 3, 4, 5, by decide⟩

/-- The class `Message`: kind tag, sender, content, receiver. -/
structure Message where
  type_ : Int
  sender_ : String
  content_ : String
  receiver_ : String
deriving DecidableEq, Repr

/-- The member `Message::serialize`. -/
def Message.serialize (m : Message) : String :=
  to_string m.type_ ++ "|" ++ m.sender_ ++ "|" ++ m.content_ ++ "|" ++ m.receiver_

/-- The static member `Message::deserialize(data)`; `E` is the enumeration `MessageType`.  An
exception that leaves the function is an `error`; the `catch (...)` around `std::stoi` (and the
`substr` in its argument) turns every exception thrown there into the synthetic message. -/
def Message.deserialize (E : MessageTypeDecl) (data : String) : Except StdException Message :=
  match find data '|' 0 with
  | none => .ok ⟨E.Broadcast, "ERROR", "Invalid message format (no first separator)", ""⟩
  | some pos1 =>
    match find data '|' (pos1 + 1) with
    | none => .ok ⟨E.Broadcast, "ERROR", "Invalid message format (no second separator)", ""⟩
    | some pos2 =>
      let pos3 := find data '|' (pos2 + 1)
      match (substr data 0 pos1).bind stoi with
      | .error _ => .ok ⟨E.Broadcast, "ERROR", "Invalid message type", ""⟩
      | .ok type =>
        (substr data (pos1 + 1) (pos2 - pos1 - 1)).bind fun sender =>
        (substr data (pos2 + 1)
          (match pos3 with
            | some p3 => p3 - pos2 - 1
            | none => data.length - pos2 - 1)).bind fun content =>
        (match pos3 with
          | some p3 => substrFrom data (p3 + 1)
          | none => .ok "").bind fun receiver =>
        .ok ⟨type, sender, content, receiver⟩

/-! ### `ClientHandler` -/

/-- The data members of a `ClientHandler` the registry reads or writes (the thread, the server
back pointer and the socket mutex are left out). -/
structure ClientHandler where
  prompt_pending_ : Bool
  client_socket_ : Int
  nickname_ : String
  active_ : Bool
deriving DecidableEq, Repr

/-- The member `ClientHandler::stopClient` on the object itself. -/
def ClientHandler.stopClient (c : ClientHandler) : ClientHandler :=
  if c.active_ then
    if c.client_socket_ ≠ -1 then { c with active_ := false, client_socket_ := -1 }
    else { c with active_ := false }
  else c

/-! ### `ChatServer` -/

/-- The registry members of `ChatServer`, together with the objects the pointers refer to
(`heap`) and the transcript of `send` calls made by `ClientHandler::sendMessage` (`sent`). -/
structure ChatServer where
  heap : Nat → ClientHandler
  clients_ : PtrSet
  nicknames_ : NickMap
  clients_to_remove_ : List Nat
  running_ : Bool
  sent : List (Nat × String)

namespace ChatServer

/-- The call `client->getNickname()`. -/
def getNickname (s : ChatServer) (client : Nat) : String := (s.heap client).nickname_

/-- The bytes `ClientHandler::sendMessage` writes for `msg`. -/
def wire (msg : String) : String := "\r" ++ msg ++ "\n"

/-- The call `client->sendMessage(msg)`: one `send` of `"\r" + msg + "\n"` on the object's
socket, then `prompt_pending_ = true`. -/
def sendMessage (s : ChatServer) (client : Nat) (msg : String) : ChatServer :=
  { s with
    heap := fun q => if q = client then { s.heap q with prompt_pending_ := true } else s.heap q
    sent := s.sent ++ [(client, wire msg)] }

/-- The call `client->setNickname(nickname)`. -/
def setNickname (s : ChatServer) (client : Nat) (nickname : String) : ChatServer :=
  { s with heap := fun q => if q = client then { s.heap q with nickname_ := nickname } else s.heap q }

/-- The member `ChatServer::broadcast(message, exclude)`; `exclude = none` is `nullptr`. -/
def broadcast (s : ChatServer) (message : String) (exclude : Option Nat) : ChatServer :=
  s.clients_.elems.foldl
    (fun st client => if some client ≠ exclude then st.sendMessage client message else st) s

/-- The member `ChatServer::removeClient(client)`. -/
def removeClient (s : ChatServer) (client : Nat) : ChatServer :=
  let s1 : ChatServer :=
    match s.nicknames_.find (s.getNickname client) with
    | some p =>
      if p = client then { s with nicknames_ := s.nicknames_.erase (s.getNickname client) } else s
    | none => s
  { s1 with clients_ := s1.clients_.erase client }

/-- The departure notice of `ChatServer::clientDisconnected`. -/
def leftNotice (nick : String) : String :=
  "\x1b[1;36m[System] " ++ nick ++ " left the chat\x1b[0m"

/-- Whether the registry still holds a `std::shared_ptr` to the object at `client`: the entry
of the live set or an entry of the nickname map.  The registry holds the only lasting owners
(the `shared_ptr` of the accept loop dies with its block), so an object without one has been
destroyed. -/
def owned (s : ChatServer) (client : Nat) : Bool :=
  decide (client ∈ s.clients_.elems) || s.nicknames_.entries.any (fun e => decide (e.2 = client))

/-- The read `client->getNickname()` that `clientDisconnected` makes after `removeClient`.
While the registry still owns the object the read returns its nickname.  Otherwise
`~ClientHandler` has run and the read goes through a dangling pointer, which is undefined
behaviour: the model takes the result from `dangling`, about which nothing is assumed. -/
def readNicknameAfterRemoval (dangling : ChatServer → Nat → String) (s1 : ChatServer)
    (client : Nat) : String :=
  if s1.owned client then s1.getNickname client else dangling s1 client

/-- The member `ChatServer::clientDisconnected(client)`.  The nickname for the notice is read
through `client` after `removeClient` has erased the references the registry held (lines 279
to 283); `dangling` says what such a read returns once the object is destroyed. -/
def clientDisconnected (dangling : ChatServer → Nat → String) (s : ChatServer) (client : Nat) :
    ChatServer :=
  let s1 := s.removeClient client
  if s1.running_ then
    s1.broadcast (leftNotice (readNicknameAfterRemoval dangling s1 client)) none
  else s1

/-- The member `ChatServer::scheduleClientRemoval(client)`. -/
def scheduleClientRemoval (s : ChatServer) (client : Nat) : ChatServer :=
  if client ∉ s.clients_to_remove_ then
    { s with clients_to_remove_ := s.clients_to_remove_ ++ [client] }
  else s

/-- The member `ChatServer::processScheduledRemovals()`; `dangling` is handed to every
`clientDisconnected` of the loop. -/
def processScheduledRemovals (dangling : ChatServer → Nat → String) (s : ChatServer) :
    ChatServer :=
  { s.clients_to_remove_.foldl (clientDisconnected dangling) s with clients_to_remove_ := [] }

/-- The member `ChatServer::getOnlineUsers()`. -/
def getOnlineUsers (s : ChatServer) : List String := s.nicknames_.keys

/-- The body of the first loop of `getNextAvailableUserNumber`: the number a nickname
contributes to `usedNumbers`, if any. -/
def userNumberOf (nickname : String) : Option Int :=
  if 5 ≤ nickname.length ∧ substr nickname 0 4 = .ok "User" then
    match substrFrom nickname 4 with
    | .ok numPart =>
      if numPart.data ≠ [] ∧ numPart.data.all isdigit then
        match stoi numPart with
        | .ok num => some num
        | .error _ => none
      else none
    | .error _ => none
  else none

/-- The first loop of `getNextAvailableUserNumber`: the numbers of the nicknames `User<digits>`
whose digits `std::stoi` converts; the list stands for the `std::set<int> usedNumbers`. -/
def usedNumbers (nicknames : List String) : List Int :=
  nicknames.filterMap userNumberOf

/-- The second loop of `getNextAvailableUserNumber`: `while (used.find(candidate) != used.end())
candidate++`, run for at most `fuel` iterations. -/
def nextCandidate (used : List Int) : Nat → Int → Int
  | 0, candidate => candidate
  | fuel + 1, candidate =>
    if candidate ∈ used then nextCandidate used fuel (wrapInt (candidate + 1)) else candidate

/-- The member `ChatServer::getNextAvailableUserNumber()`.  The loop leaves after at most
`usedNumbers.size() + 1` tests, which is the fuel it is given. -/
def getNextAvailableUserNumber (s : ChatServer) : Int :=
  let used := usedNumbers s.nicknames_.keys
  nextCandidate used (used.length + 1) 1

/-- The `"| Your nickname: ..."` line of the welcome banner. -/
def nickLine (nickname : String) : String :=
  let spacesNeeded : Int := wrapInt (40 - 18 - (nickname.length : Int) - 0)
  let line := "| Your nickname: " ++ nickname
  let line := if 0 < spacesNeeded then line ++ ⟨List.replicate spacesNeeded.toNat ' '⟩ else line
  line ++ "|"

/-- The join notice of the accept loop. -/
def joinedNotice (nick : String) : String := "\x1b[1;36m[System] " ++ nick ++ " joined\x1b[0m"

/-- The search of the accept loop for a registered session with the socket `client_socket`. -/
def clientExists (s : ChatServer) (client_socket : Int) : Bool :=
  s.clients_.elems.any (fun existing => (s.heap existing).client_socket_ = client_socket)

/-- The registration step of `ChatServer::run` for an accepted connection `client_socket`
(lines 206 to 259); `client` is the address `std::make_shared` returns for the new object. -/
def acceptClient (s : ChatServer) (client_socket : Int) (client : Nat) : ChatServer :=
  let userNumber := s.getNextAvailableUserNumber
  let defaultNick := "User" ++ to_string userNumber
  let s0 : ChatServer :=
    { s with heap := fun q => if q = client then ⟨true, client_socket, defaultNick, true⟩ else s.heap q }
  if s.clientExists client_socket then s0
  else
    let s1 : ChatServer :=
      { s0 with
        clients_ := s0.clients_.insert client
        nicknames_ := s0.nicknames_.insert (s0.getNickname client) client }
    let nickname := s1.getNickname client
    let s2 := s1.sendMessage client "----------------------------------------"
    let s3 := s2.sendMessage client "| Welcome to the chat server!          |"
    let s4 := s3.sendMessage client (nickLine nickname)
    let s5 := s4.sendMessage client "| Use /nick <new_nick> to change nick  |"
    let s6 := s5.sendMessage client "| Use /pm <nick> <message> for PM      |"
    let s7 := s6.sendMessage client "| Use /users to list online users      |"
    let s8 := s7.sendMessage client "| Use /leave to exit the chat          |"
    let s9 := s8.sendMessage client "----------------------------------------"
    s9.broadcast (joinedNotice (s9.getNickname client)) none

/-- The call `str.pop_back()`. -/
def pop_back (str : String) : String := ⟨str.data.dropLast⟩

/-- The reply of the `Private` case when the receiver is not in the nickname map. -/
def notFoundMessage (s : ChatServer) (sender : Nat) (receiver : String) : String :=
  let error_msg := "\x1b[1;31m[System] Error: User '" ++ receiver ++ "' not found\x1b[0m"
  let error_msg := error_msg ++ "\n\x1b[1;36mAvailable users: "
  let error_msg := s.nicknames_.entries.foldl
    (fun acc e => if e.1 ≠ s.getNickname sender then acc ++ (e.1 ++ ", ") else acc) error_msg
  let error_msg := if s.nicknames_.entries ≠ [] then pop_back (pop_back error_msg) else error_msg
  error_msg ++ "\x1b[0m"

/-- The error reply of the `NickChange` case. -/
def takenMessage (new_nick : String) : String :=
  "\x1b[1;31m[System] Error: Nickname '" ++ new_nick ++ "' is already taken\x1b[0m"

/-- The system notice of the `NickChange` case. -/
def changedNotice (old_nick new_nick : String) : String :=
  "\x1b[1;36m[System] " ++ old_nick ++ " changed name to\x1b[0m \x1b[1;33m" ++ new_nick ++ "\x1b[0m"

/-- The reply of the `UsersList` case. -/
def userListMessage (users : List String) : String :=
  let userList := "\x1b[1;36m=== Online users (" ++ to_string (users.length : Int) ++ ") ===\x1b[0m\n"
  let userList := users.foldl (fun acc user => acc ++ (" â€¢ " ++ user ++ "\n")) userList
  userList ++ "\x1b[1;36m========================\x1b[0m"

/-- The member `ChatServer::processMessage(sender, msg)`; `E` is the enumeration `MessageType`. -/
def processMessage (E : MessageTypeDecl) (s : ChatServer) (sender : Nat) (msg : Message) :
    ChatServer :=
  if msg.type_ = E.Broadcast then
    let formatted := "[" ++ s.getNickname sender ++ "] " ++ msg.content_
    s.broadcast formatted (some sender)
  else if msg.type_ = E.Private then
    let receiver := msg.receiver_
    match s.nicknames_.find receiver with
    | some it =>
      let to_receiver := "\x1b[1;35m[PM from " ++ s.getNickname sender ++ "]\x1b[0m " ++ msg.content_
      let to_sender := "\x1b[1;35m[PM to " ++ receiver ++ "]\x1b[0m " ++ msg.content_
      (s.sendMessage it to_receiver).sendMessage sender to_sender
    | none => s.sendMessage sender (s.notFoundMessage sender receiver)
  else if msg.type_ = E.NickChange then
    let old_nick := s.getNickname sender
    let new_nick := msg.content_
    if (s.nicknames_.find new_nick).isSome ∧ new_nick ≠ old_nick then
      s.sendMessage sender (takenMessage new_nick)
    else if sender ∈ s.clients_.elems then
      let s1 : ChatServer := { s with nicknames_ := (s.nicknames_.erase old_nick).insert new_nick sender }
      let s2 := s1.setNickname sender new_nick
      s2.broadcast (changedNotice old_nick new_nick) none
    else s
  else if msg.type_ = E.Connect ∨ msg.type_ = E.Disconnect then
    s.broadcast ("\x1b[1;36m[System]\x1b[0m " ++ msg.content_) none
  else if msg.type_ = E.UsersList then
    s.sendMessage sender (userListMessage s.getOnlineUsers)
  else s

/-- The server right after construction: nobody registered, nothing pending, nothing sent. -/
def init (heap : Nat → ClientHandler) (running : Bool) : ChatServer :=
  ⟨heap, PtrSet.empty, NickMap.empty, [], running, []⟩

/-- The call `client->stopClient()` on the object at address `client`. -/
def stopClient (s : ChatServer) (client : Nat) : ChatServer :=
  { s with heap := fun q => if q = client then (s.heap q).stopClient else s.heap q }

/-- The farewell of `/leave`. -/
def leavingMessage : String := "\x1b[1;36m[System] You are leaving the chat. Goodbye!\x1b[0m"

/-- The reply to `/nick` with nothing but white space after it. -/
def emptyNickMessage : String := "\x1b[1;31m[System] Error: Nickname cannot be empty\x1b[0m"

/-- The reply to `/nick` with a name of more than 20 characters. -/
def tooLongMessage : String := "\x1b[1;31m[System] Error: Nickname too long (max 20 chars)\x1b[0m"

/-- The reply to `/nick` with a name that contains the separator. -/
def invalidCharMessage : String :=
  "\x1b[1;31m[System] Error: Nickname cannot contain '|' character\x1b[0m"

/-- The `/nick ` branch of `processRawMessage` up to the call of `processMessage` (lines 475 to
496): the state after the error replies, and the `NickChange` message that is handed to
`processMessage`, if one is. -/
def nickCommand (E : MessageTypeDecl) (s : ChatServer) (sender : Nat) (raw_msg : String) :
    Except StdException (ChatServer × Option Message) :=
  (substrFrom raw_msg 6).bind fun new_nick =>
  match find_first_not_of new_nick " \t\r\n", find_last_not_of new_nick " \t\r\n" with
  | some start, some last =>
    (substr new_nick start (last - start + 1)).bind fun new_nick =>
    let s1 := if 20 < new_nick.length then s.sendMessage sender tooLongMessage else s
    (if 20 < new_nick.length then substr new_nick 0 20 else .ok new_nick).bind fun new_nick =>
    if (find new_nick '|' 0).isSome then .ok (s1.sendMessage sender invalidCharMessage, none)
    else .ok (s1, some ⟨E.NickChange, s1.getNickname sender, new_nick, ""⟩)
  | _, _ => .ok (s.sendMessage sender emptyNickMessage, none)

/-- The end of `processRawMessage` (lines 512 to 519): `/users` asks for the list, every other
line is broadcast as it is. -/
def plainCommand (E : MessageTypeDecl) (s : ChatServer) (sender : Nat) (raw_msg : String) :
    ChatServer :=
  if raw_msg = "/users" then s.processMessage E sender ⟨E.UsersList, s.getNickname sender, "", ""⟩
  else s.processMessage E sender ⟨E.Broadcast, s.getNickname sender, raw_msg, ""⟩

/-- The member `ChatServer::processRawMessage(sender, raw_msg)`; an exception that leaves the
function is an `error`.  A `/pm ` line without a space after position 4 leaves its branch
without returning and goes on to the `/users` test and the broadcast. -/
def processRawMessage (E : MessageTypeDecl) (s : ChatServer) (sender : Nat) (raw_msg : String) :
    Except StdException ChatServer :=
  if raw_msg.data = [] then .ok s
  else if raw_msg = "/leave" then .ok ((s.sendMessage sender leavingMessage).stopClient sender)
  else if rfindAtZero raw_msg "/nick " then
    (nickCommand E s sender raw_msg).bind fun r =>
    match r.2 with
    | some msg => .ok (r.1.processMessage E sender msg)
    | none => .ok r.1
  else if rfindAtZero raw_msg "/pm " then
    match find raw_msg ' ' 4 with
    | some space_pos =>
      (substr raw_msg 4 (space_pos - 4)).bind fun receiver =>
      (substrFrom raw_msg (space_pos + 1)).bind fun content =>
      .ok (s.processMessage E sender ⟨E.Private, s.getNickname sender, content, receiver⟩)
    | none => .ok (plainCommand E s sender raw_msg)
  else .ok (plainCommand E s sender raw_msg)

/-- The notice `stopClients` sends to every session. -/
def shutdownMessage : String := "\x1b[1;36m[System] Server is shutting down. Disconnecting...\x1b[0m"

/-- The member `ChatServer::stopClients()`. -/
def stopClients (s : ChatServer) : ChatServer :=
  let s1 := s.clients_.elems.foldl
    (fun st client => (st.sendMessage client shutdownMessage).stopClient client) s
  { s1 with clients_ := PtrSet.empty, nicknames_ := NickMap.empty }

/-- The member `ChatServer::stop()` (the listening socket and the join of the accept thread are
left out). -/
def stop (s : ChatServer) : ChatServer :=
  if ¬ s.running_ then s
  else
    let s1 := ({ s with running_ := false } : ChatServer).stopClients
    { s1 with clients_ := PtrSet.empty, nicknames_ := NickMap.empty }

/-- What `select` and `recv` report in one pass of the read loop. -/
inductive ReadEvent where
  | selectError (eintr : Bool)
  | selectTimeout
  | recv (bytes_received : Int) (buffer : String)
deriving DecidableEq, Repr

/-- What the outside world answers in one pass of the read loop of `ClientHandler::run`:
whether the `send` of the prompt wrote anything, and the outcome of `select` and `recv`. -/
structure Iteration where
  prompt_sent : Bool
  event : ReadEvent
deriving DecidableEq, Repr

/-- The member `ClientHandler::sendPrompt()` of the object at `self`; the prompt is written
with `send` directly and is not part of the transcript. -/
def sendPrompt (s : ChatServer) (self : Nat) (prompt_sent : Bool) : ChatServer :=
  if ¬ (s.heap self).prompt_pending_ then s
  else if prompt_sent then
    { s with heap := fun q => if q = self then { s.heap q with prompt_pending_ := false } else s.heap q }
  else s

/-- The assignment `active_ = false` of the read loop. -/
def clearActive (s : ChatServer) (self : Nat) : ChatServer :=
  { s with heap := fun q => if q = self then { s.heap q with active_ := false } else s.heap q }

/-- The assignment `prompt_pending_ = true` of the read loop. -/
def setPromptPending (s : ChatServer) (self : Nat) : ChatServer :=
  { s with heap := fun q => if q = self then { s.heap q with prompt_pending_ := true } else s.heap q }

/-- The `while (active_)` loop of `ClientHandler::run` for the object at `self`, fed with the
answers of the outside world pass by pass; `none` when the answers run out while the loop is
still running.  Other threads do not interleave, so the test `if (!active_) break` after
`select`, which only another thread can make true, is left out; a `std::exception` out of
`processRawMessage` ends the loop through the `catch`. -/
def runLoop (E : MessageTypeDecl) (self : Nat) : List Iteration → ChatServer → Option ChatServer
  | [], s => if (s.heap self).active_ then none else some s
  | it :: rest, s =>
    if ¬ (s.heap self).active_ then some s
    else
      let s1 := s.sendPrompt self it.prompt_sent
      match it.event with
      | .selectError eintr => if eintr then runLoop E self rest s1 else some s1
      | .selectTimeout => runLoop E self rest s1
      | .recv bytes_received buffer =>
        if bytes_received ≤ 0 then some (s1.clearActive self)
        else
          let raw_msg := eraseRemove (eraseRemove buffer '\n') '\r'
          if raw_msg.data ≠ [] then
            if raw_msg = "/leave" then
              some ((s1.sendMessage self leavingMessage).stopClient self)
            else
              match processRawMessage E s1 self raw_msg with
              | .ok s2 => runLoop E self rest (s2.setPromptPending self)
              | .error _ => some s1
          else runLoop E self rest s1

/-- The member `ClientHandler::run()` of the object at `self`: the read loop, then
`stopClient()` and `server_->scheduleClientRemoval(this)`. -/
def run (E : MessageTypeDecl) (s : ChatServer) (self : Nat) (world : List Iteration) :
    Option ChatServer :=
  (runLoop E self world s).map fun s1 => (s1.stopClient self).scheduleClientRemoval self

end ChatServer

/-! ### Vocabulary of the properties -/

/-- The messages `s` sent on top of the transcript of the earlier state `s0`. -/
def newlySent (s0 s : ChatServer) : List (Nat × String) := s.sent.drop s0.sent.length

/-- The byte strings session `q` receives between the states `s0` and `s`, in order. -/
def received (s0 s : ChatServer) (q : Nat) : List String :=
  ((newlySent s0 s).filter (fun m => m.1 = q)).map Prod.snd

namespace ChatServer

/-- The fold of `broadcast` over an arbitrary list of recipients. -/
def sendAll (message : String) (exclude : Option Nat) (l : List Nat) (s : ChatServer) :
    ChatServer :=
  l.foldl (fun st client => if some client ≠ exclude then st.sendMessage client message else st) s

end ChatServer

/-- The nickname is `User` followed by a non-empty string of digits that denotes `N`. -/
def DenotesUser (nickname : String) (N : Int) : Prop :=
  ∃ ds : List Char, nickname = "User" ++ ⟨ds⟩ ∧ ds ≠ [] ∧ (∀ c ∈ ds, isdigit c = true) ∧
    (digitsValue ds : Int) = N

/-- Registry consistency: every live session has exactly one nickname-map entry, stored under
its current nickname and pointing back to it; every entry points to a live session; no two
live sessions share a nickname. -/
def Consistent (s : ChatServer) : Prop :=
  (∀ p ∈ s.clients_.elems,
    s.nicknames_.entries.filter (fun e => e.2 = p) = [(s.getNickname p, p)]) ∧
  (∀ e ∈ s.nicknames_.entries, e.2 ∈ s.clients_.elems) ∧
  (∀ p ∈ s.clients_.elems, ∀ q ∈ s.clients_.elems, s.getNickname p = s.getNickname q → p = q)

instance (s : ChatServer) : Decidable (Consistent s) := by
  unfold Consistent; infer_instance

/-- Consistency in terms of lookups: a live session is found under its nickname, and whatever
is found under a key is a live session with that nickname. -/
def LookupConsistent (s : ChatServer) : Prop :=
  (∀ p ∈ s.clients_.elems, s.nicknames_.find (s.getNickname p) = some p) ∧
  (∀ k q, s.nicknames_.find k = some q → q ∈ s.clients_.elems ∧ s.getNickname q = k)

/-- One registry operation: the registration step of the accept loop for socket `client_socket`
and new object `client`, `removeClient(client)`, or the dispatch of `msg` from `sender`. -/
inductive Op where
  | accept (client_socket : Int) (client : Nat)
  | remove (client : Nat)
  | dispatch (sender : Nat) (msg : Message)

/-- The state after one operation. -/
def Op.apply (E : MessageTypeDecl) (s : ChatServer) : Op → ChatServer
  | .accept client_socket client => s.acceptClient client_socket client
  | .remove client => s.removeClient client
  | .dispatch sender msg => s.processMessage E sender msg

/-- When an operation of a registry run can occur: `std::make_shared` returns the address of no
registered session and the registry holds fewer than `INT_MAX` nicknames (the counter of
`getNextAvailableUserNumber` is an `int`); a dispatched message is a `NickChange`. -/
def Op.Admissible (E : MessageTypeDecl) (s : ChatServer) : Op → Prop
  | .accept _ client => client ∉ s.clients_.elems ∧ s.nicknames_.keys.length < 2147483647
  | .remove _ => True
  | .dispatch _ msg => msg.type_ = E.NickChange

/-- The states reached from an empty registry by registrations, removals and `NickChange`
dispatches, one at a time. -/
inductive Reachable (E : MessageTypeDecl) : ChatServer → Prop
  | start (s : ChatServer) :
      s.clients_.elems = [] → s.nicknames_.entries = [] → Reachable E s
  | step (s : ChatServer) (op : Op) :
      Reachable E s → op.Admissible E s → Reachable E (op.apply E s)

/-- Every name followed by the separator `", "`, as the loop of the `Private` case appends. -/
def withTrailingSeparators : List String → String
  | [] => ""
  | x :: xs => x ++ ", " ++ withTrailingSeparators xs

namespace ChatServer

/-- The first part of the reply of the `Private` case on a miss, up to the list of names. -/
def notFoundHeader (receiver : String) : String :=
  "\x1b[1;31m[System] Error: User '" ++ receiver ++ "' not found\x1b[0m" ++
    "\n\x1b[1;36mAvailable users: "

end ChatServer

/-- The name `t` is what is left of `rest` once the white space of `" \t\r\n"` around it is
removed: `rest` is `t` between two runs of white space, and `t` is empty or starts and ends
with a character that is not white space. -/
def TrimsTo (rest t : String) : Prop :=
  ∃ a b : List Char, rest.data = a ++ (t.data ++ b) ∧
    (∀ c ∈ a, c ∈ [' ', '\t', '\r', '\n']) ∧ (∀ c ∈ b, c ∈ [' ', '\t', '\r', '\n']) ∧
    (t.data = [] ∨
      ((∃ x mid, t.data = x :: mid ∧ x ∉ [' ', '\t', '\r', '\n']) ∧
        (∃ front y, t.data = front ++ [y] ∧ y ∉ [' ', '\t', '\r', '\n'])))

/-- The text is a decimal integer denoting `k`: an optional sign followed by one or more
digits. -/
def IsDecimalInt (txt : String) (k : Int) : Prop :=
  ∃ ds : List Char, ds ≠ [] ∧ (∀ c ∈ ds, isdigit c = true) ∧
    ((txt.data = ds ∧ k = (digitsValue ds : Int)) ∨
      (txt.data = '-' :: ds ∧ k = -(digitsValue ds : Int)) ∨
      (txt.data = '+' :: ds ∧ k = (digitsValue ds : Int)))

/-! ## Part 2: properties

### The live set -/

namespace PtrSet

theorem nodup (s : PtrSet) : s.elems.Nodup :=
  s.sorted.imp (fun h => Nat.ne_of_lt h)

end PtrSet

/-! ### Lookup, assignment and erasure in the nickname map -/

theorem findEntry_insertEntry_self (k : String) (v : Nat) (l : List (String × Nat)) :
    findEntry k (insertEntry k v l) = some v := by
  induction l with
  | nil => simp [insertEntry, findEntry]
  | cons hd rest ih =>
    obtain ⟨k1, v1⟩ := hd
    unfold insertEntry
    split_ifs with h1 h2
    · simp [findEntry]
    · simp [findEntry]
    · simp [findEntry, ih, Ne.symm h2]

theorem findEntry_insertEntry_ne {k k2 : String} (v : Nat) (l : List (String × Nat))
    (h : k2 ≠ k) : findEntry k2 (insertEntry k v l) = findEntry k2 l := by
  induction l with
  | nil => simp [insertEntry, findEntry, Ne.symm h]
  | cons hd rest ih =>
    obtain ⟨k1, v1⟩ := hd
    unfold insertEntry
    split_ifs with h1 h2
    · simp [findEntry, Ne.symm h]
    · subst h2; simp [findEntry, Ne.symm h]
    · simp [findEntry, ih]

theorem findEntry_eraseEntry_self (k : String) (l : List (String × Nat)) :
    findEntry k (eraseEntry k l) = none := by
  induction l with
  | nil => simp [eraseEntry, findEntry]
  | cons hd rest ih =>
    obtain ⟨k1, v1⟩ := hd
    by_cases h : k1 = k
    · simpa [eraseEntry, h] using ih
    · simpa [eraseEntry, h, findEntry] using ih

theorem findEntry_eraseEntry_ne {k k2 : String} (l : List (String × Nat)) (h : k2 ≠ k) :
    findEntry k2 (eraseEntry k l) = findEntry k2 l := by
  induction l with
  | nil => simp [eraseEntry, findEntry]
  | cons hd rest ih =>
    obtain ⟨k1, v1⟩ := hd
    by_cases h1 : k1 = k
    · have h2 : k1 ≠ k2 := by rw [h1]; exact Ne.symm h
      simpa [eraseEntry, h1, findEntry, h2, Ne.symm h] using ih
    · by_cases h2 : k1 = k2
      · subst h2
        simp [eraseEntry, List.filter_cons, h1, findEntry]
      · simpa [eraseEntry, h1, findEntry, h2] using ih

theorem mem_of_findEntry {k : String} {v : Nat} {l : List (String × Nat)}
    (h : findEntry k l = some v) : (k, v) ∈ l := by
  induction l with
  | nil => simp [findEntry] at h
  | cons hd rest ih =>
    obtain ⟨k1, v1⟩ := hd
    by_cases h1 : k1 = k
    · simp [findEntry, h1] at h
      simp [h1, h]
    · simp [findEntry, h1] at h
      exact List.mem_cons_of_mem _ (ih h)

theorem findEntry_of_mem {k : String} {v : Nat} {l : List (String × Nat)}
    (hs : KeysSorted l) (h : (k, v) ∈ l) : findEntry k l = some v := by
  induction l with
  | nil => simp at h
  | cons hd rest ih =>
    obtain ⟨k1, v1⟩ := hd
    have hs2 := List.pairwise_cons.1 hs
    rcases List.mem_cons.1 h with h | h
    · cases h; simp [findEntry]
    · have hlt := hs2.1 _ h
      have hne : k1 ≠ k := by rintro rfl; exact lt_irrefl _ hlt
      simp [findEntry, hne, ih hs2.2 h]

theorem findEntry_eq_none_of_lt {k : String} {l : List (String × Nat)}
    (h : ∀ e ∈ l, k.data < e.1.data) : findEntry k l = none := by
  induction l with
  | nil => rfl
  | cons hd rest ih =>
    obtain ⟨k1, v1⟩ := hd
    have h1 : k1 ≠ k := by
      rintro rfl; exact lt_irrefl _ (h _ (List.mem_cons_self _ _))
    simp [findEntry, h1, ih (fun e he => h e (List.mem_cons_of_mem _ he))]

theorem eraseEntry_eq_self {k : String} {l : List (String × Nat)}
    (h : ∀ e ∈ l, e.1 ≠ k) : eraseEntry k l = l := by
  unfold eraseEntry
  exact List.filter_eq_self.2 (fun e he => by simpa using h e he)

theorem insertEntry_eraseEntry {k : String} {v : Nat} {l : List (String × Nat)}
    (hs : KeysSorted l) (h : findEntry k l = some v) :
    insertEntry k v (eraseEntry k l) = l := by
  induction l with
  | nil => simp [findEntry] at h
  | cons hd rest ih =>
    obtain ⟨k1, v1⟩ := hd
    have hs2 := List.pairwise_cons.1 hs
    by_cases h1 : k1 = k
    · subst h1
      simp [findEntry] at h
      subst h
      have hrest : eraseEntry k1 rest = rest :=
        eraseEntry_eq_self (fun e he heq => by
          have := hs2.1 e he
          rw [heq] at this
          exact lt_irrefl _ this)
      have : eraseEntry k1 ((k1, v1) :: rest) = rest := by
        simp only [eraseEntry] at hrest ⊢
        simpa [List.filter_cons] using hrest
      rw [this]
      cases rest with
      | nil => simp [insertEntry]
      | cons hd2 r2 =>
        obtain ⟨k2, v2⟩ := hd2
        have hlt : k1.data < k2.data := hs2.1 (k2, v2) (List.mem_cons_self _ _)
        simp [insertEntry, hlt]
    · have hrest : findEntry k rest = some v := by simpa [findEntry, h1] using h
      have hlt : k1.data < k.data := hs2.1 (k, v) (mem_of_findEntry hrest)
      have : eraseEntry k ((k1, v1) :: rest) = (k1, v1) :: eraseEntry k rest := by
        simp [eraseEntry, List.filter_cons, h1]
      rw [this]
      unfold insertEntry
      rw [if_neg (not_lt.2 (le_of_lt hlt)), if_neg (Ne.symm h1), ih hs2.2 hrest]

namespace NickMap

theorem find_insert_self (m : NickMap) (k : String) (p : Nat) : (m.insert k p).find k = some p :=
  findEntry_insertEntry_self k p m.entries

theorem find_insert_ne (m : NickMap) {k k2 : String} (p : Nat) (h : k2 ≠ k) :
    (m.insert k p).find k2 = m.find k2 :=
  findEntry_insertEntry_ne p m.entries h

theorem find_erase_self (m : NickMap) (k : String) : (m.erase k).find k = none :=
  findEntry_eraseEntry_self k m.entries

theorem find_erase_ne (m : NickMap) {k k2 : String} (h : k2 ≠ k) :
    (m.erase k).find k2 = m.find k2 :=
  findEntry_eraseEntry_ne m.entries h

theorem mem_entries_iff (m : NickMap) (k : String) (p : Nat) :
    (k, p) ∈ m.entries ↔ m.find k = some p :=
  ⟨findEntry_of_mem m.sorted, mem_of_findEntry⟩

theorem insert_erase (m : NickMap) {k : String} {p : Nat} (h : m.find k = some p) :
    (m.erase k).insert k p = m :=
  ext_entries (insertEntry_eraseEntry m.sorted h)

theorem entries_nodup (m : NickMap) : m.entries.Nodup :=
  m.sorted.imp (fun h heq => by rw [heq] at h; exact lt_irrefl _ h)

theorem keys_nodup (m : NickMap) : m.keys.Nodup := by
  unfold keys List.Nodup
  rw [List.pairwise_map]
  exact m.sorted.imp (fun h heq => by rw [heq] at h; exact lt_irrefl _ h)

end NickMap

/-! ### Frame lemmas for sending -/

namespace ChatServer

theorem broadcast_eq (s : ChatServer) (message : String) (exclude : Option Nat) :
    s.broadcast message exclude = sendAll message exclude s.clients_.elems s := rfl

theorem sendAll_frame (message : String) (exclude : Option Nat) (l : List Nat) (s : ChatServer) :
    (sendAll message exclude l s).clients_ = s.clients_ ∧
    (sendAll message exclude l s).nicknames_ = s.nicknames_ ∧
    (sendAll message exclude l s).clients_to_remove_ = s.clients_to_remove_ ∧
    (sendAll message exclude l s).running_ = s.running_ ∧
    (∀ q, (sendAll message exclude l s).getNickname q = s.getNickname q) ∧
    (∀ q, ((sendAll message exclude l s).heap q).client_socket_ = (s.heap q).client_socket_) ∧
    (∀ q, ((sendAll message exclude l s).heap q).active_ = (s.heap q).active_) ∧
    (sendAll message exclude l s).sent =
      s.sent ++ (l.filter (fun q => some q ≠ exclude)).map (fun q => (q, wire message)) := by
  induction l generalizing s with
  | nil => simp [sendAll]
  | cons c rest ih =>
    have hstep : sendAll message exclude (c :: rest) s =
        sendAll message exclude rest
          (if some c ≠ exclude then s.sendMessage c message else s) := rfl
    rw [hstep]
    obtain ⟨h1, h2, h3, h4, h5, h6, h7, h8⟩ :=
      ih (if some c ≠ exclude then s.sendMessage c message else s)
    by_cases hc : some c = exclude
    · simp only [hc, ne_eq, not_true_eq_false, if_false] at h1 h2 h3 h4 h5 h6 h7 h8 ⊢
      refine ⟨h1, h2, h3, h4, h5, h6, h7, ?_⟩
      rw [h8, List.filter_cons]
      simp [hc]
    · simp only [ne_eq, hc, not_false_eq_true, if_true] at h1 h2 h3 h4 h5 h6 h7 h8 ⊢
      refine ⟨h1, h2, h3, h4, ?_, ?_, ?_, ?_⟩
      · intro q; rw [h5 q]; unfold getNickname sendMessage; dsimp only; split_ifs <;> rfl
      · intro q; rw [h6 q]; unfold sendMessage; dsimp only; split_ifs <;> rfl
      · intro q; rw [h7 q]; unfold sendMessage; dsimp only; split_ifs <;> rfl
      · rw [h8, List.filter_cons]
        simp [hc, sendMessage]

theorem broadcast_clients (s : ChatServer) (m : String) (ex : Option Nat) :
    (s.broadcast m ex).clients_ = s.clients_ := (sendAll_frame m ex _ s).1

theorem broadcast_nicknames (s : ChatServer) (m : String) (ex : Option Nat) :
    (s.broadcast m ex).nicknames_ = s.nicknames_ := (sendAll_frame m ex _ s).2.1

theorem broadcast_pending (s : ChatServer) (m : String) (ex : Option Nat) :
    (s.broadcast m ex).clients_to_remove_ = s.clients_to_remove_ := (sendAll_frame m ex _ s).2.2.1

theorem broadcast_running (s : ChatServer) (m : String) (ex : Option Nat) :
    (s.broadcast m ex).running_ = s.running_ := (sendAll_frame m ex _ s).2.2.2.1

theorem broadcast_getNickname (s : ChatServer) (m : String) (ex : Option Nat) (q : Nat) :
    (s.broadcast m ex).getNickname q = s.getNickname q := (sendAll_frame m ex _ s).2.2.2.2.1 q

theorem broadcast_sent (s : ChatServer) (m : String) (ex : Option Nat) :
    (s.broadcast m ex).sent =
      s.sent ++ (s.clients_.elems.filter (fun q => some q ≠ ex)).map (fun q => (q, wire m)) :=
  (sendAll_frame m ex _ s).2.2.2.2.2.2.2

theorem sendMessage_getNickname (s : ChatServer) (c : Nat) (m : String) (q : Nat) :
    (s.sendMessage c m).getNickname q = s.getNickname q := by
  unfold getNickname sendMessage; dsimp only; split_ifs <;> rfl

end ChatServer

theorem received_of_sent {s0 s : ChatServer} {add : List (Nat × String)}
    (h : s.sent = s0.sent ++ add) (q : Nat) :
    received s0 s q = (add.filter (fun m => m.1 = q)).map Prod.snd := by
  unfold received newlySent
  rw [h, List.drop_left]

theorem received_map_const (l : List Nat) (hl : l.Nodup) (x : String) (q : Nat) :
    ((l.map (fun c => (c, x))).filter (fun m => m.1 = q)).map Prod.snd =
      if q ∈ l then [x] else [] := by
  induction l with
  | nil => simp
  | cons c rest ih =>
    have hn := List.nodup_cons.1 hl
    by_cases hq : c = q
    · subst hq
      have hrest : ((rest.map (fun c => (c, x))).filter (fun m => m.1 = c)).map Prod.snd = [] := by
        rw [ih hn.2, if_neg hn.1]
      simp only [List.map_cons, List.filter_cons, decide_True, if_true, List.mem_cons, true_or]
      rw [hrest]
    · have hq2 : ¬ q = c := fun h => hq h.symm
      simp only [List.map_cons, List.filter_cons, hq, decide_False, List.mem_cons, hq2, false_or]
      simpa using ih hn.2

/-! ### Decimal digits -/

theorem isdigit_iff (c : Char) : isdigit c = true ↔ 48 ≤ c.toNat ∧ c.toNat ≤ 57 := by
  unfold isdigit
  simp only [Bool.and_eq_true, decide_eq_true_eq]
  constructor
  · rintro ⟨h1, h2⟩
    exact ⟨Char.le_def.1 h1, Char.le_def.1 h2⟩
  · rintro ⟨h1, h2⟩
    exact ⟨Char.le_def.2 h1, Char.le_def.2 h2⟩

theorem not_isspace_of_isdigit {c : Char} (h : isdigit c = true) : isspace c = false := by
  rw [isdigit_iff] at h
  by_contra hs
  have hs2 : isspace c = true := by simpa using hs
  unfold isspace at hs2
  simp only [Bool.or_eq_true, decide_eq_true_eq] at hs2
  rcases hs2 with ((((rfl | rfl) | rfl) | rfl) | rfl) | rfl <;> simp at h

theorem not_sign_of_isdigit {c : Char} (h : isdigit c = true) : c ≠ '-' ∧ c ≠ '+' := by
  rw [isdigit_iff] at h
  constructor <;> rintro rfl <;> simp at h

theorem digitChar_toNat {d : Nat} (h : d < 10) : (digitChar d).toNat = 48 + d := by
  interval_cases d <;> rfl

theorem isdigit_digitChar {d : Nat} (h : d < 10) : isdigit (digitChar d) = true := by
  rw [isdigit_iff, digitChar_toNat h]; omega

theorem digitsValue_foldl (l : List Char) (a : Nat) :
    l.foldl (fun acc c => 10 * acc + (c.toNat - 48)) a = a * 10 ^ l.length + digitsValue l := by
  induction l generalizing a with
  | nil => simp [digitsValue]
  | cons c rest ih =>
    unfold digitsValue
    simp only [List.foldl_cons, List.length_cons]
    rw [ih, ih (10 * 0 + (c.toNat - 48))]
    ring

theorem digitsValue_cons (c : Char) (l : List Char) :
    digitsValue (c :: l) = (c.toNat - 48) * 10 ^ l.length + digitsValue l := by
  have := digitsValue_foldl l (10 * 0 + (c.toNat - 48))
  unfold digitsValue at this ⊢
  simpa using this

theorem digitsValue_toDigitsAux (fuel n : Nat) (acc : List Char) (h : n < fuel) :
    digitsValue (toDigitsAux fuel n acc) = n * 10 ^ acc.length + digitsValue acc := by
  induction fuel generalizing n acc with
  | zero => omega
  | succ f ih =>
    unfold toDigitsAux
    split_ifs with h10
    · rw [digitsValue_cons, digitChar_toNat h10]; simp
    · have hlt : n / 10 < f := by omega
      rw [ih (n / 10) _ hlt, digitsValue_cons, digitChar_toNat (Nat.mod_lt n (by norm_num))]
      simp only [List.length_cons, Nat.add_sub_cancel_left, pow_succ]
      conv_rhs => rw [← Nat.div_add_mod n 10]
      ring

theorem isdigit_toDigitsAux (fuel n : Nat) (acc : List Char)
    (hacc : ∀ c ∈ acc, isdigit c = true) : ∀ c ∈ toDigitsAux fuel n acc, isdigit c = true := by
  induction fuel generalizing n acc with
  | zero => simpa [toDigitsAux] using hacc
  | succ f ih =>
    unfold toDigitsAux
    split_ifs with h10
    · intro c hc
      rcases List.mem_cons.1 hc with rfl | hc
      · exact isdigit_digitChar h10
      · exact hacc c hc
    · apply ih
      intro c hc
      rcases List.mem_cons.1 hc with rfl | hc
      · exact isdigit_digitChar (Nat.mod_lt n (by norm_num))
      · exact hacc c hc

theorem toDigitsAux_ne_nil (fuel n : Nat) (acc : List Char) (h : acc ≠ [] ∨ 0 < fuel) :
    toDigitsAux fuel n acc ≠ [] := by
  induction fuel generalizing n acc with
  | zero =>
    rcases h with h | h
    · simpa [toDigitsAux] using h
    · omega
  | succ f ih =>
    unfold toDigitsAux
    split_ifs with h10
    · simp
    · exact ih _ _ (Or.inl (by simp))

theorem digitsValue_natDigits (n : Nat) : digitsValue (natDigits n) = n := by
  unfold natDigits
  rw [digitsValue_toDigitsAux _ _ _ (Nat.lt_succ_self n)]
  simp [digitsValue]

theorem isdigit_natDigits (n : Nat) : ∀ c ∈ natDigits n, isdigit c = true :=
  isdigit_toDigitsAux _ _ _ (by simp)

theorem natDigits_ne_nil (n : Nat) : natDigits n ≠ [] :=
  toDigitsAux_ne_nil _ _ _ (Or.inr (Nat.succ_pos n))

/-- On a non-empty string of digits `std::stoi` reads the whole string. -/
theorem stoi_digits (ds : List Char) (hne : ds ≠ []) (hd : ∀ c ∈ ds, isdigit c = true) :
    stoi ⟨ds⟩ =
      if INT_MAX < (digitsValue ds : Int) then .error .out_of_range
      else .ok (digitsValue ds : Int) := by
  cases ds with
  | nil => exact absurd rfl hne
  | cons c r =>
    have hc := hd c (List.mem_cons_self _ _)
    have hsp := not_isspace_of_isdigit hc
    have hsg := not_sign_of_isdigit hc
    have htw : List.takeWhile isdigit (c :: r) = c :: r :=
      List.takeWhile_eq_self_iff.2 hd
    have hmin : ¬ ((digitsValue (c :: r) : Int) < INT_MIN) := by
      unfold INT_MIN; omega
    have hdrop : List.dropWhile isspace (c :: r) = c :: r := by
      simp [List.dropWhile_cons, hsp]
    have hsign : stoiSign (c :: r) = (false, c :: r) := by
      simp [stoiSign, hsg.1, hsg.2]
    unfold stoi
    simp only [hdrop, hsign, htw]
    simp [hmin]

/-! ### Default nicknames -/

namespace ChatServer

theorem userNumberOf_user_digits (ds : List Char) (hne : ds ≠ [])
    (hd : ∀ c ∈ ds, isdigit c = true) :
    userNumberOf ("User" ++ ⟨ds⟩) =
      if INT_MAX < (digitsValue ds : Int) then none else some (digitsValue ds : Int) := by
  have hdata : ("User" ++ (⟨ds⟩ : String)).data = 'U' :: 's' :: 'e' :: 'r' :: ds := rfl
  have hlen : ("User" ++ (⟨ds⟩ : String)).length = 4 + ds.length := by
    show ("User" ++ (⟨ds⟩ : String)).data.length = _
    rw [hdata]; simp; omega
  have hpos : 0 < ds.length := List.length_pos.2 hne
  have h1 : substr ("User" ++ (⟨ds⟩ : String)) 0 4 = .ok "User" := by
    unfold substr
    rw [if_pos (Nat.zero_le _), hdata]
    rfl
  have h2 : substrFrom ("User" ++ (⟨ds⟩ : String)) 4 = .ok ⟨ds⟩ := by
    unfold substrFrom
    rw [if_pos (by rw [hlen]; omega), hdata]
    rfl
  have h3 : ds.all isdigit = true := List.all_eq_true.2 hd
  unfold userNumberOf
  rw [if_pos ⟨by rw [hlen]; omega, h1⟩, h2]
  simp only [ne_eq, hne, not_false_eq_true, h3, and_self, if_true]
  rw [stoi_digits ds hne hd]
  split_ifs <;> rfl

theorem userNumberOf_eq_some {nickname : String} {N : Int} :
    userNumberOf nickname = some N ↔ N ≤ INT_MAX ∧ DenotesUser nickname N := by
  constructor
  · intro h
    unfold userNumberOf at h
    split_ifs at h with hc
    obtain ⟨hlen, hsub⟩ := hc
    unfold substr at hsub
    rw [if_pos (Nat.zero_le _)] at hsub
    have htake : nickname.data.take 4 = ['U', 's', 'e', 'r'] := by
      have := Except.ok.inj hsub
      simpa using congrArg String.data this
    have hfrom : substrFrom nickname 4 = .ok ⟨nickname.data.drop 4⟩ := by
      unfold substrFrom; rw [if_pos (by omega)]
    rw [hfrom] at h
    simp only at h
    split_ifs at h with hd
    obtain ⟨hne, hall⟩ := hd
    have hall2 : ∀ c ∈ nickname.data.drop 4, isdigit c = true := List.all_eq_true.1 hall
    have hnick : nickname = "User" ++ ⟨nickname.data.drop 4⟩ := by
      apply String.ext
      show nickname.data = 'U' :: 's' :: 'e' :: 'r' :: nickname.data.drop 4
      conv_lhs => rw [← List.take_append_drop 4 nickname.data, htake]
      rfl
    rw [stoi_digits _ hne hall2] at h
    split_ifs at h with hmax
    simp only [Option.some.injEq] at h
    exact ⟨by rw [← h]; exact not_lt.1 hmax, _, hnick, hne, hall2, h⟩
  · rintro ⟨hmax, ds, rfl, hne, hd, hv⟩
    rw [userNumberOf_user_digits ds hne hd, hv, if_neg (not_lt.2 hmax)]

theorem mem_usedNumbers {nicknames : List String} {N : Int} :
    N ∈ usedNumbers nicknames ↔ N ≤ INT_MAX ∧ ∃ nick ∈ nicknames, DenotesUser nick N := by
  unfold usedNumbers
  rw [List.mem_filterMap]
  constructor
  · rintro ⟨nick, hmem, h⟩
    obtain ⟨h1, h2⟩ := userNumberOf_eq_some.1 h
    exact ⟨h1, nick, hmem, h2⟩
  · rintro ⟨h1, nick, hmem, h2⟩
    exact ⟨nick, hmem, userNumberOf_eq_some.2 ⟨h1, h2⟩⟩

theorem usedNumbers_length_le (nicknames : List String) :
    (usedNumbers nicknames).length ≤ nicknames.length :=
  List.length_filterMap_le _ _

theorem wrapInt_of_le {n : Int} (h1 : INT_MIN ≤ n) (h2 : n ≤ INT_MAX) : wrapInt n = n := by
  unfold INT_MIN at h1
  unfold INT_MAX at h2
  unfold wrapInt
  omega

/-- The search loop leaves through its condition, at the least positive number not in `used`,
as long as the counter cannot reach the end of `int`. -/
theorem nextCandidate_spec (used : List Int) (fuel : Nat) (c : Int)
    (hc : 1 ≤ c) (hbound : c + fuel ≤ 2147483648)
    (hbelow : ∀ M : Int, 1 ≤ M → M < c → M ∈ used)
    (hcard : (used.toFinset.filter (fun x => c ≤ x)).card < fuel) :
    nextCandidate used fuel c ∉ used ∧ c ≤ nextCandidate used fuel c ∧
    nextCandidate used fuel c + 1 ≤ c + fuel ∧
    ∀ M : Int, 1 ≤ M → M < nextCandidate used fuel c → M ∈ used := by
  induction fuel generalizing c with
  | zero => omega
  | succ f ih =>
    unfold nextCandidate
    split_ifs with hmem
    · have hin : c ∈ used.toFinset.filter (fun x => c ≤ x) := by
        simp [hmem]
      have hsub : used.toFinset.filter (fun x => c + 1 ≤ x) ⊂
          used.toFinset.filter (fun x => c ≤ x) := by
        rw [Finset.ssubset_iff_of_subset]
        · exact ⟨c, hin, by simp⟩
        · intro x hx
          simp only [Finset.mem_filter, List.mem_toFinset] at hx ⊢
          exact ⟨hx.1, by omega⟩
      have hlt := Finset.card_lt_card hsub
      have hf : 1 ≤ f := by
        have : 0 < (used.toFinset.filter (fun x => c ≤ x)).card := Finset.card_pos.2 ⟨c, hin⟩
        omega
      have hw : wrapInt (c + 1) = c + 1 :=
        wrapInt_of_le (by unfold INT_MIN; omega) (by unfold INT_MAX; push_cast at hbound; omega)
      rw [hw]
      have := ih (c + 1) (by omega) (by push_cast at hbound ⊢; omega)
        (fun M h1 h2 => by
          by_cases hM : M = c
          · rw [hM]; exact hmem
          · exact hbelow M h1 (by omega))
        (by omega)
      refine ⟨this.1, by omega, ?_, this.2.2.2⟩
      have := this.2.2.1
      push_cast
      omega
    · refine ⟨hmem, le_refl _, ?_, hbelow⟩
      push_cast; omega

/-- The value `getNextAvailableUserNumber` returns on a registry of fewer than `INT_MAX`
nicknames: positive, not denoted by any nickname, and least such. -/
theorem getNextAvailableUserNumber_spec (s : ChatServer)
    (hsize : s.nicknames_.keys.length < 2147483647) :
    0 < s.getNextAvailableUserNumber ∧
    s.getNextAvailableUserNumber ≤ s.nicknames_.keys.length + 1 ∧
    (∀ nick ∈ s.nicknames_.keys, ¬ DenotesUser nick s.getNextAvailableUserNumber) ∧
    (∀ M : Int, 0 < M → M < s.getNextAvailableUserNumber →
      ∃ nick ∈ s.nicknames_.keys, DenotesUser nick M) := by
  have hlen := usedNumbers_length_le s.nicknames_.keys
  have hcard : ((usedNumbers s.nicknames_.keys).toFinset.filter (fun x => (1 : Int) ≤ x)).card <
      (usedNumbers s.nicknames_.keys).length + 1 := by
    have h1 := Finset.card_filter_le (usedNumbers s.nicknames_.keys).toFinset (fun x => (1 : Int) ≤ x)
    have h2 := List.toFinset_card_le (usedNumbers s.nicknames_.keys)
    omega
  obtain ⟨h1, h2, h3, h4⟩ := nextCandidate_spec (usedNumbers s.nicknames_.keys)
    ((usedNumbers s.nicknames_.keys).length + 1) 1 (le_refl _) (by push_cast; omega)
    (fun M hM1 hM2 => by omega) hcard
  have hN : s.getNextAvailableUserNumber =
      nextCandidate (usedNumbers s.nicknames_.keys) ((usedNumbers s.nicknames_.keys).length + 1) 1 :=
    rfl
  rw [hN]
  have hle : nextCandidate (usedNumbers s.nicknames_.keys)
      ((usedNumbers s.nicknames_.keys).length + 1) 1 ≤ s.nicknames_.keys.length + 1 := by
    push_cast at h3; omega
  refine ⟨by omega, hle, ?_, ?_⟩
  · intro nick hnick hden
    exact h1 (mem_usedNumbers.2 ⟨by unfold INT_MAX; omega, nick, hnick, hden⟩)
  · intro M hM1 hM2
    exact (mem_usedNumbers.1 (h4 M (by omega) hM2)).2

/-- The default nickname of the accept loop is not in the nickname map. -/
theorem defaultNick_fresh (s : ChatServer) (hsize : s.nicknames_.keys.length < 2147483647) :
    "User" ++ to_string s.getNextAvailableUserNumber ∉ s.nicknames_.keys := by
  obtain ⟨h1, _, h3, _⟩ := getNextAvailableUserNumber_spec s hsize
  intro hmem
  apply h3 _ hmem
  have hto : to_string s.getNextAvailableUserNumber =
      ⟨natDigits s.getNextAvailableUserNumber.natAbs⟩ := by
    unfold to_string; rw [if_neg (by omega)]
  refine ⟨natDigits s.getNextAvailableUserNumber.natAbs, by rw [hto], natDigits_ne_nil _,
    isdigit_natDigits _, ?_⟩
  rw [digitsValue_natDigits]
  omega

end ChatServer

/-! ### Registry consistency -/

theorem eq_singleton_of_nodup {α : Type} {l : List α} {x : α} (hn : l.Nodup)
    (hall : ∀ e ∈ l, e = x) (hx : x ∈ l) : l = [x] := by
  cases l with
  | nil => simp at hx
  | cons a t =>
    have ha : a = x := hall a (List.mem_cons_self _ _)
    subst ha
    cases t with
    | nil => rfl
    | cons b t2 =>
      have hb : b = a := hall b (List.mem_cons_of_mem _ (List.mem_cons_self _ _))
      subst hb
      simp at hn

theorem consistent_iff_lookup (s : ChatServer) : Consistent s ↔ LookupConsistent s := by
  constructor
  · rintro ⟨ha, hb, _⟩
    refine ⟨fun p hp => ?_, fun k q hf => ?_⟩
    · have hmem : (s.getNickname p, p) ∈ s.nicknames_.entries.filter (fun e => e.2 = p) := by
        rw [ha p hp]; exact List.mem_singleton_self _
      exact (s.nicknames_.mem_entries_iff _ _).1 (List.mem_filter.1 hmem).1
    · have hmem := (s.nicknames_.mem_entries_iff k q).2 hf
      have hq := hb _ hmem
      refine ⟨hq, ?_⟩
      have hin : (k, q) ∈ s.nicknames_.entries.filter (fun e => e.2 = q) :=
        List.mem_filter.2 ⟨hmem, by simp⟩
      rw [ha q hq] at hin
      exact (congrArg Prod.fst (List.mem_singleton.1 hin)).symm
  · rintro ⟨h1, h2⟩
    refine ⟨fun p hp => ?_, fun e he => ?_, fun p hp q hq heq => ?_⟩
    · apply eq_singleton_of_nodup (s.nicknames_.entries_nodup.filter _)
      · rintro ⟨k, q⟩ he
        obtain ⟨hmem, hq⟩ := List.mem_filter.1 he
        have hq2 : q = p := by simpa using hq
        subst hq2
        have := (h2 k q ((s.nicknames_.mem_entries_iff k q).1 hmem)).2
        rw [this]
      · exact List.mem_filter.2 ⟨(s.nicknames_.mem_entries_iff _ _).2 (h1 p hp), by simp⟩
    · exact (h2 e.1 e.2 ((s.nicknames_.mem_entries_iff _ _).1 he)).1
    · have hp2 := h1 p hp
      rw [heq, h1 q hq] at hp2
      exact (Option.some.inj hp2).symm

theorem lookupConsistent_congr {s r : ChatServer} (hc : r.clients_ = s.clients_)
    (hn : r.nicknames_ = s.nicknames_)
    (hg : ∀ q ∈ s.clients_.elems, r.getNickname q = s.getNickname q)
    (h : LookupConsistent s) : LookupConsistent r := by
  obtain ⟨h1, h2⟩ := h
  refine ⟨fun p hp => ?_, fun k q hf => ?_⟩
  · rw [hc] at hp
    rw [hn, hg p hp]
    exact h1 p hp
  · rw [hn] at hf
    obtain ⟨hq, hk⟩ := h2 k q hf
    rw [hc, hg q hq]
    exact ⟨hq, hk⟩

theorem NickMap.find_eq_none_of_not_mem_keys (m : NickMap) {k : String} (h : k ∉ m.keys) :
    m.find k = none := by
  cases hf : m.find k with
  | none => rfl
  | some p =>
    exfalso; apply h
    exact List.mem_map.2 ⟨(k, p), (m.mem_entries_iff k p).2 hf, rfl⟩

theorem NickMap.mem_keys_of_find (m : NickMap) {k : String} {p : Nat} (h : m.find k = some p) :
    k ∈ m.keys :=
  List.mem_map.2 ⟨(k, p), (m.mem_entries_iff k p).2 h, rfl⟩

theorem PtrSet.mem_insert (s : PtrSet) (p x : Nat) :
    x ∈ (s.insert p).elems ↔ x = p ∨ x ∈ s.elems := mem_insertSorted p x s.elems

theorem PtrSet.mem_erase (s : PtrSet) (p x : Nat) :
    x ∈ (s.erase p).elems ↔ x ≠ p ∧ x ∈ s.elems := s.nodup.mem_erase_iff

theorem PtrSet.erase_of_not_mem (s : PtrSet) {p : Nat} (h : p ∉ s.elems) : s.erase p = s :=
  PtrSet.ext_elems (List.erase_of_not_mem h)

namespace ChatServer

/-- The registry after inserting a fresh session under a fresh nickname stays consistent. -/
theorem lookupConsistent_register {s r : ChatServer} {p : Nat} {d : String}
    (h : LookupConsistent s) (hp : p ∉ s.clients_.elems) (hd : s.nicknames_.find d = none)
    (hc : r.clients_ = s.clients_.insert p) (hn : r.nicknames_ = s.nicknames_.insert d p)
    (hg : ∀ q, r.getNickname q = if q = p then d else s.getNickname q) :
    LookupConsistent r := by
  obtain ⟨h1, h2⟩ := h
  refine ⟨fun q hq => ?_, fun k q hf => ?_⟩
  · rw [hc, PtrSet.mem_insert] at hq
    rw [hn, hg q]
    by_cases hqp : q = p
    · rw [if_pos hqp, hqp]; exact NickMap.find_insert_self _ _ _
    · have hq2 : q ∈ s.clients_.elems := hq.resolve_left hqp
      have hk : s.getNickname q ≠ d := by
        intro heq
        have := h1 q hq2
        rw [heq, hd] at this
        exact Option.noConfusion this
      rw [if_neg hqp, NickMap.find_insert_ne _ _ hk]
      exact h1 q hq2
  · rw [hn] at hf
    rw [hc, PtrSet.mem_insert, hg q]
    by_cases hk : k = d
    · subst hk
      rw [NickMap.find_insert_self] at hf
      have hq : p = q := Option.some.inj hf
      subst hq
      exact ⟨Or.inl rfl, by simp⟩
    · rw [NickMap.find_insert_ne _ _ hk] at hf
      obtain ⟨hq, hnick⟩ := h2 k q hf
      have hqp : q ≠ p := fun heq => hp (heq ▸ hq)
      exact ⟨Or.inr hq, by rw [if_neg hqp]; exact hnick⟩

theorem lookupConsistent_removeClient {s : ChatServer} (h : LookupConsistent s) (c : Nat) :
    LookupConsistent (s.removeClient c) := by
  obtain ⟨h1, h2⟩ := h
  unfold removeClient
  cases hf : s.nicknames_.find (s.getNickname c) with
  | none =>
    have hc : c ∉ s.clients_.elems := by
      intro hc
      have := h1 c hc
      rw [hf] at this
      exact Option.noConfusion this
    simp only
    rw [PtrSet.erase_of_not_mem _ hc]
    exact ⟨h1, h2⟩
  | some p =>
    by_cases hpc : p = c
    · subst hpc
      simp only [if_true]
      refine ⟨fun q hq => ?_, fun k q hk => ?_⟩
      · obtain ⟨hqp, hq2⟩ := (PtrSet.mem_erase _ _ _).1 hq
        have hne : s.getNickname q ≠ s.getNickname p := by
          intro heq
          have := h1 q hq2
          rw [heq, hf] at this
          exact hqp (Option.some.inj this).symm
        show (s.nicknames_.erase (s.getNickname p)).find (s.getNickname q) = some q
        rw [NickMap.find_erase_ne _ hne]
        exact h1 q hq2
      · have hk2 : (s.nicknames_.erase (s.getNickname p)).find k = some q := hk
        have hne : k ≠ s.getNickname p := by
          intro heq
          rw [heq, NickMap.find_erase_self] at hk2
          exact Option.noConfusion hk2
        rw [NickMap.find_erase_ne _ hne] at hk2
        obtain ⟨hq, hnick⟩ := h2 k q hk2
        have hqp : q ≠ p := by
          rintro rfl
          exact hne hnick.symm
        exact ⟨(PtrSet.mem_erase _ _ _).2 ⟨hqp, hq⟩, hnick⟩
    · have hc : c ∉ s.clients_.elems := by
        intro hc
        have := h1 c hc
        rw [hf] at this
        exact hpc (Option.some.inj this)
      simp only [hpc, if_false]
      rw [PtrSet.erase_of_not_mem _ hc]
      exact ⟨h1, h2⟩

/-- The registry after a session moves from its nickname `o` to `n`, where `n` is `o` or free. -/
theorem lookupConsistent_rename {s r : ChatServer} {p : Nat} {n : String}
    (h : LookupConsistent s) (hp : p ∈ s.clients_.elems)
    (hfree : n = s.getNickname p ∨ s.nicknames_.find n = none)
    (hc : r.clients_ = s.clients_)
    (hn : r.nicknames_ = (s.nicknames_.erase (s.getNickname p)).insert n p)
    (hg : ∀ q, r.getNickname q = if q = p then n else s.getNickname q) :
    LookupConsistent r := by
  obtain ⟨h1, h2⟩ := h
  have hown := h1 p hp
  refine ⟨fun q hq => ?_, fun k q hf => ?_⟩
  · rw [hc] at hq
    rw [hn, hg q]
    by_cases hqp : q = p
    · rw [if_pos hqp, hqp]; exact NickMap.find_insert_self _ _ _
    · have hq1 := h1 q hq
      have hko : s.getNickname q ≠ s.getNickname p := by
        intro heq
        rw [heq, hown] at hq1
        exact hqp (Option.some.inj hq1).symm
      have hkn : s.getNickname q ≠ n := by
        intro heq
        rcases hfree with hfree | hfree
        · exact hko (heq.trans hfree)
        · rw [heq, hfree] at hq1
          exact Option.noConfusion hq1
      rw [if_neg hqp, NickMap.find_insert_ne _ _ hkn, NickMap.find_erase_ne _ hko]
      exact hq1
  · rw [hn] at hf
    rw [hc, hg q]
    by_cases hk : k = n
    · subst hk
      rw [NickMap.find_insert_self] at hf
      have hq : p = q := Option.some.inj hf
      subst hq
      exact ⟨hp, by simp⟩
    · rw [NickMap.find_insert_ne _ _ hk] at hf
      have hko : k ≠ s.getNickname p := by
        intro heq
        rw [heq, NickMap.find_erase_self] at hf
        exact Option.noConfusion hf
      rw [NickMap.find_erase_ne _ hko] at hf
      obtain ⟨hq, hnick⟩ := h2 k q hf
      have hqp : q ≠ p := by
        rintro rfl
        exact hko hnick.symm
      exact ⟨hq, by rw [if_neg hqp]; exact hnick⟩

end ChatServer

/-! ### Effect of the operations on the registry -/

namespace ChatServer

@[simp] theorem sendMessage_clients (s : ChatServer) (c : Nat) (m : String) :
    (s.sendMessage c m).clients_ = s.clients_ := rfl

@[simp] theorem sendMessage_nicknames (s : ChatServer) (c : Nat) (m : String) :
    (s.sendMessage c m).nicknames_ = s.nicknames_ := rfl

@[simp] theorem sendMessage_pending (s : ChatServer) (c : Nat) (m : String) :
    (s.sendMessage c m).clients_to_remove_ = s.clients_to_remove_ := rfl

@[simp] theorem sendMessage_running (s : ChatServer) (c : Nat) (m : String) :
    (s.sendMessage c m).running_ = s.running_ := rfl

@[simp] theorem sendMessage_sent (s : ChatServer) (c : Nat) (m : String) :
    (s.sendMessage c m).sent = s.sent ++ [(c, wire m)] := rfl

theorem acceptClient_exists (s : ChatServer) (sock : Int) (p : Nat)
    (h : s.clientExists sock = true) :
    (s.acceptClient sock p).clients_ = s.clients_ ∧
    (s.acceptClient sock p).nicknames_ = s.nicknames_ ∧
    (s.acceptClient sock p).sent = s.sent ∧
    ∀ q, q ≠ p → (s.acceptClient sock p).heap q = s.heap q := by
  unfold acceptClient
  simp only [h, if_true]
  refine ⟨trivial, trivial, trivial, fun q hq => ?_⟩
  simp [hq]

theorem acceptClient_new (s : ChatServer) (sock : Int) (p : Nat)
    (h : s.clientExists sock = false) :
    (s.acceptClient sock p).clients_ = s.clients_.insert p ∧
    (s.acceptClient sock p).nicknames_ =
      s.nicknames_.insert ("User" ++ to_string s.getNextAvailableUserNumber) p ∧
    ∀ q, (s.acceptClient sock p).getNickname q =
      if q = p then "User" ++ to_string s.getNextAvailableUserNumber else s.getNickname q := by
  unfold acceptClient
  simp only [h, Bool.false_eq_true, if_false]
  refine ⟨?_, ?_, fun q => ?_⟩
  · rw [broadcast_clients]; simp [getNickname]
  · rw [broadcast_nicknames]; simp [getNickname]
  · rw [broadcast_getNickname]
    simp only [sendMessage_getNickname]
    unfold getNickname
    dsimp only
    split_ifs <;> rfl

theorem decl_ne (E : MessageTypeDecl) :
    E.Broadcast ≠ E.Private ∧ E.Broadcast ≠ E.NickChange ∧ E.Broadcast ≠ E.Connect ∧
    E.Broadcast ≠ E.Disconnect ∧ E.Broadcast ≠ E.UsersList ∧ E.Private ≠ E.NickChange ∧
    E.Private ≠ E.Connect ∧ E.Private ≠ E.Disconnect ∧ E.Private ≠ E.UsersList ∧
    E.NickChange ≠ E.Connect ∧ E.NickChange ≠ E.Disconnect ∧ E.NickChange ≠ E.UsersList ∧
    E.Connect ≠ E.Disconnect ∧ E.Connect ≠ E.UsersList ∧ E.Disconnect ≠ E.UsersList := by
  have h := E.distinct
  simp only [List.nodup_cons, List.mem_cons, List.mem_singleton, not_or, List.not_mem_nil,
    not_false_eq_true, List.nodup_nil, and_true] at h
  tauto

/-- The `NickChange` case of `processMessage`. -/
theorem processMessage_nickChange (E : MessageTypeDecl) (s : ChatServer) (sender : Nat)
    (msg : Message) (h : msg.type_ = E.NickChange) :
    s.processMessage E sender msg =
      if (s.nicknames_.find msg.content_).isSome ∧ msg.content_ ≠ s.getNickname sender then
        s.sendMessage sender (takenMessage msg.content_)
      else if sender ∈ s.clients_.elems then
        (({ s with nicknames_ :=
            (s.nicknames_.erase (s.getNickname sender)).insert msg.content_ sender } :
          ChatServer).setNickname sender msg.content_).broadcast
          (changedNotice (s.getNickname sender) msg.content_) none
      else s := by
  have hd := decl_ne E
  unfold processMessage
  rw [if_neg (by rw [h]; exact Ne.symm hd.2.1), if_neg (by rw [h]; exact Ne.symm hd.2.2.2.2.2.1),
    if_pos h]

/-- The `Private` case of `processMessage`. -/
theorem processMessage_private (E : MessageTypeDecl) (s : ChatServer) (sender : Nat)
    (msg : Message) (h : msg.type_ = E.Private) :
    s.processMessage E sender msg =
      match s.nicknames_.find msg.receiver_ with
      | some it =>
        (s.sendMessage it ("\x1b[1;35m[PM from " ++ s.getNickname sender ++ "]\x1b[0m " ++
          msg.content_)).sendMessage sender
          ("\x1b[1;35m[PM to " ++ msg.receiver_ ++ "]\x1b[0m " ++ msg.content_)
      | none => s.sendMessage sender (s.notFoundMessage sender msg.receiver_) := by
  have hd := decl_ne E
  unfold processMessage
  rw [if_neg (by rw [h]; exact Ne.symm hd.1), if_pos h]

theorem lookupConsistent_processMessage_nickChange (E : MessageTypeDecl) {s : ChatServer}
    (hs : LookupConsistent s) (sender : Nat) (msg : Message) (h : msg.type_ = E.NickChange) :
    LookupConsistent (s.processMessage E sender msg) := by
  rw [processMessage_nickChange E s sender msg h]
  split_ifs with htaken hlive
  · exact @lookupConsistent_congr s _ rfl rfl (fun q _ => sendMessage_getNickname _ _ _ _) hs
  · have hfree : msg.content_ = s.getNickname sender ∨ s.nicknames_.find msg.content_ = none := by
      by_cases heq : msg.content_ = s.getNickname sender
      · exact Or.inl heq
      · right
        cases hf : s.nicknames_.find msg.content_ with
        | none => rfl
        | some q => exact absurd ⟨by simp [hf], heq⟩ htaken
    refine lookupConsistent_rename hs hlive hfree ?_ ?_ ?_
    · rw [broadcast_clients]; rfl
    · rw [broadcast_nicknames]; rfl
    · intro q
      rw [broadcast_getNickname]
      unfold getNickname setNickname
      dsimp only
      split_ifs <;> rfl
  · exact hs

theorem lookupConsistent_acceptClient {s : ChatServer} (hs : LookupConsistent s) (sock : Int)
    {p : Nat} (hp : p ∉ s.clients_.elems) (hsize : s.nicknames_.keys.length < 2147483647) :
    LookupConsistent (s.acceptClient sock p) := by
  cases hex : s.clientExists sock with
  | true =>
    obtain ⟨h1, h2, _, h4⟩ := acceptClient_exists s sock p hex
    refine lookupConsistent_congr h1 h2 (fun q hq => ?_) hs
    have hqp : q ≠ p := fun heq => hp (heq ▸ hq)
    unfold getNickname
    rw [h4 q hqp]
  | false =>
    obtain ⟨h1, h2, h3⟩ := acceptClient_new s sock p hex
    exact lookupConsistent_register hs hp
      (NickMap.find_eq_none_of_not_mem_keys _ (defaultNick_fresh s hsize)) h1 h2 h3

end ChatServer

theorem lookupConsistent_of_reachable (E : MessageTypeDecl) {s : ChatServer}
    (h : Reachable E s) : LookupConsistent s := by
  induction h with
  | start s hc hn =>
    refine ⟨fun p hp => ?_, fun k q hf => ?_⟩
    · rw [hc] at hp; simp at hp
    · unfold NickMap.find at hf
      rw [hn] at hf
      simp [findEntry] at hf
  | step s op _ hadm ih =>
    cases op with
    | accept sock p => exact ChatServer.lookupConsistent_acceptClient ih sock hadm.1 hadm.2
    | remove c => exact ChatServer.lookupConsistent_removeClient ih c
    | dispatch sender msg =>
      exact ChatServer.lookupConsistent_processMessage_nickChange E ih sender msg hadm

/-! ### Deferred removal -/

namespace ChatServer

theorem removeClient_clients (s : ChatServer) (c : Nat) :
    (s.removeClient c).clients_ = s.clients_.erase c := by
  unfold removeClient
  dsimp only
  split
  · split_ifs <;> rfl
  · rfl

theorem removeClient_frame (s : ChatServer) (c : Nat) :
    (s.removeClient c).heap = s.heap ∧ (s.removeClient c).sent = s.sent ∧
    (s.removeClient c).running_ = s.running_ ∧
    (s.removeClient c).clients_to_remove_ = s.clients_to_remove_ := by
  unfold removeClient
  dsimp only
  split
  · split_ifs <;> exact ⟨rfl, rfl, rfl, rfl⟩
  · exact ⟨rfl, rfl, rfl, rfl⟩

theorem clientDisconnected_clients (dangling : ChatServer → Nat → String) (s : ChatServer)
    (c : Nat) : (s.clientDisconnected dangling c).clients_ = s.clients_.erase c := by
  unfold clientDisconnected
  dsimp only
  split_ifs
  · rw [broadcast_clients, removeClient_clients]
  · exact removeClient_clients s c

theorem clientDisconnected_nicknames (dangling : ChatServer → Nat → String) (s : ChatServer)
    (c : Nat) : (s.clientDisconnected dangling c).nicknames_ = (s.removeClient c).nicknames_ := by
  unfold clientDisconnected
  dsimp only
  split_ifs
  · rw [broadcast_nicknames]
  · rfl

theorem clientDisconnected_running (dangling : ChatServer → Nat → String) (s : ChatServer)
    (c : Nat) : (s.clientDisconnected dangling c).running_ = s.running_ := by
  unfold clientDisconnected
  dsimp only
  split_ifs
  · rw [broadcast_running, (removeClient_frame s c).2.2.1]
  · exact (removeClient_frame s c).2.2.1

theorem clientDisconnected_sent (dangling : ChatServer → Nat → String) (s : ChatServer)
    (c : Nat) (hrun : s.running_ = true) :
    (s.clientDisconnected dangling c).sent =
      s.sent ++ (s.clients_.erase c).elems.map
        (fun q => (q, wire (leftNotice (readNicknameAfterRemoval dangling (s.removeClient c) c)))) := by
  have hr : (s.removeClient c).running_ = true := by rw [(removeClient_frame s c).2.2.1, hrun]
  have hfilter : (fun q : Nat => decide (some q ≠ (none : Option Nat))) = fun _ => true := by
    funext q; simp
  unfold clientDisconnected
  dsimp only
  rw [if_pos hr, broadcast_sent, removeClient_clients, (removeClient_frame s c).2.1,
    hfilter, List.filter_true]

theorem removeClient_nicknames (s : ChatServer) (c : Nat) :
    (s.nicknames_.find (s.getNickname c) = some c ∧
      (s.removeClient c).nicknames_ = s.nicknames_.erase (s.getNickname c)) ∨
    (s.nicknames_.find (s.getNickname c) ≠ some c ∧
      (s.removeClient c).nicknames_ = s.nicknames_) := by
  by_cases hown : s.nicknames_.find (s.getNickname c) = some c
  · refine Or.inl ⟨hown, ?_⟩
    unfold removeClient
    rw [hown]
    simp
  · refine Or.inr ⟨hown, ?_⟩
    unfold removeClient
    dsimp only
    split
    · rename_i p hp
      have hpc : p ≠ c := by
        rintro rfl
        exact hown hp
      rw [if_neg hpc]
    · rfl

/-- After `removeClient(c)` in a consistent registry no entry of the nickname map points to
`c`. -/
theorem removeClient_find_ne {s : ChatServer} (hs : Consistent s) (c : Nat) (k : String) :
    (s.removeClient c).nicknames_.find k ≠ some c := by
  obtain ⟨h1, h2⟩ := (consistent_iff_lookup s).1 hs
  intro hfind
  rcases removeClient_nicknames s c with ⟨_, hmapeq⟩ | ⟨hown, hmapeq⟩
  · rw [hmapeq] at hfind
    by_cases hk : k = s.getNickname c
    · rw [hk, NickMap.find_erase_self] at hfind
      exact Option.noConfusion hfind
    · rw [NickMap.find_erase_ne _ hk] at hfind
      exact hk (h2 k c hfind).2.symm
  · rw [hmapeq] at hfind
    exact hown (h1 c (h2 k c hfind).1)

/-- The entries of the other sessions survive `removeClient(c)`, and none is added. -/
theorem removeClient_find_other (s : ChatServer) (c : Nat) (k : String) {q : Nat}
    (hq : q ≠ c) :
    (s.removeClient c).nicknames_.find k = some q ↔ s.nicknames_.find k = some q := by
  rcases removeClient_nicknames s c with ⟨hown, hmapeq⟩ | ⟨_, hmapeq⟩
  · rw [hmapeq]
    by_cases hk : k = s.getNickname c
    · rw [hk, NickMap.find_erase_self, hown]
      constructor
      · exact fun h => Option.noConfusion h
      · intro h
        exact absurd (Option.some.inj h).symm hq
    · rw [NickMap.find_erase_ne _ hk]
  · rw [hmapeq]

/-- In a consistent registry `removeClient(c)` erases every owner of `c`: the object is
destroyed when the call returns. -/
theorem not_owned_after_removeClient {s : ChatServer} (hs : Consistent s) (c : Nat) :
    (s.removeClient c).owned c = false := by
  unfold owned
  have hset : c ∉ (s.removeClient c).clients_.elems := by
    rw [removeClient_clients, PtrSet.mem_erase]
    exact fun h => h.1 rfl
  have hmap : ∀ e ∈ (s.removeClient c).nicknames_.entries, e.2 ≠ c := by
    rintro ⟨k, q⟩ he hq
    have hq2 : q = c := hq
    rw [hq2] at he
    exact removeClient_find_ne hs c k (((s.removeClient c).nicknames_.mem_entries_iff k c).1 he)
  simp only [Bool.or_eq_false_iff, decide_eq_false_iff_not, List.any_eq_false,
    decide_eq_true_eq]
  exact ⟨hset, fun e he => hmap e he⟩

theorem scheduleClientRemoval_of_mem {s : ChatServer} {c : Nat}
    (h : c ∈ s.clients_to_remove_) : s.scheduleClientRemoval c = s := by
  unfold scheduleClientRemoval
  rw [if_neg (not_not.2 h)]

theorem scheduleClientRemoval_pending (s : ChatServer) (c : Nat) :
    (s.scheduleClientRemoval c).clients_to_remove_ =
      if c ∈ s.clients_to_remove_ then s.clients_to_remove_ else s.clients_to_remove_ ++ [c] := by
  unfold scheduleClientRemoval
  by_cases h : c ∈ s.clients_to_remove_
  · rw [if_neg (not_not.2 h), if_pos h]
  · rw [if_pos h, if_neg h]

theorem scheduleClientRemoval_running (s : ChatServer) (c : Nat) :
    (s.scheduleClientRemoval c).running_ = s.running_ := by
  unfold scheduleClientRemoval
  by_cases h : c ∈ s.clients_to_remove_
  · rw [if_neg (not_not.2 h)]
  · rw [if_pos h]

theorem foldl_clientDisconnected_running (dangling : ChatServer → Nat → String) (l : List Nat)
    (s : ChatServer) : (l.foldl (clientDisconnected dangling) s).running_ = s.running_ := by
  induction l generalizing s with
  | nil => rfl
  | cons c rest ih => rw [List.foldl_cons, ih, clientDisconnected_running]

theorem foldl_clientDisconnected_not_mem (dangling : ChatServer → Nat → String) (l : List Nat)
    (s : ChatServer) {c : Nat} (h : c ∉ s.clients_.elems) :
    c ∉ (l.foldl (clientDisconnected dangling) s).clients_.elems := by
  induction l generalizing s with
  | nil => exact h
  | cons x rest ih =>
    rw [List.foldl_cons]
    apply ih
    rw [clientDisconnected_clients, PtrSet.mem_erase]
    exact fun hc => h hc.2

end ChatServer

/-! ### The list of available users -/

theorem intercalate_go_eq (sep : String) (l : List String) (acc : String) :
    String.intercalate.go acc sep l = acc ++ (l.map (fun x => sep ++ x)).foldr (· ++ ·) "" := by
  induction l generalizing acc with
  | nil => simp [String.intercalate.go]
  | cons a rest ih =>
    simp only [String.intercalate.go, List.map_cons, List.foldr_cons]
    rw [ih]
    simp only [String.append_assoc]

theorem foldr_sep_append (l : List String) :
    (l.map (fun x => ", " ++ x)).foldr (· ++ ·) "" ++ ", " = ", " ++ withTrailingSeparators l := by
  induction l with
  | nil => simp [withTrailingSeparators]
  | cons a rest ih =>
    simp only [List.map_cons, List.foldr_cons, withTrailingSeparators]
    rw [String.append_assoc, ih]
    simp only [String.append_assoc]

theorem withTrailingSeparators_eq {l : List String} (h : l ≠ []) :
    withTrailingSeparators l = ", ".intercalate l ++ ", " := by
  cases l with
  | nil => exact absurd rfl h
  | cons a rest =>
    simp only [String.intercalate, withTrailingSeparators]
    rw [intercalate_go_eq]
    conv_rhs => rw [String.append_assoc, foldr_sep_append]
    rw [String.append_assoc]

theorem pop_back_two (x : String) (a b : Char) :
    ChatServer.pop_back (ChatServer.pop_back (x ++ ⟨[a, b]⟩)) = x := by
  apply String.ext
  unfold ChatServer.pop_back
  show ((x ++ ⟨[a, b]⟩).data.dropLast).dropLast = x.data
  rw [String.data_append]
  have h1 : (x.data ++ [a, b]).dropLast = x.data ++ [a] := by
    rw [List.dropLast_append_cons]; rfl
  rw [h1, List.dropLast_concat]

theorem pop_back_twice (x : String) :
    ChatServer.pop_back (ChatServer.pop_back (x ++ ", ")) = x :=
  pop_back_two x ',' ' '

theorem foldl_available (nick : String) (l : List (String × Nat)) (init : String) :
    l.foldl (fun acc e => if e.1 ≠ nick then acc ++ (e.1 ++ ", ") else acc) init =
      init ++ withTrailingSeparators ((l.map Prod.fst).filter (fun k => k ≠ nick)) := by
  induction l generalizing init with
  | nil => simp [withTrailingSeparators]
  | cons e rest ih =>
    rw [List.foldl_cons, ih]
    by_cases h : e.1 = nick
    · simp [h]
    · simp [h, withTrailingSeparators, String.append_assoc]

namespace ChatServer

/-- With another nickname online the reply lists the other nicknames, separated by `", "`. -/
theorem notFoundMessage_eq (s : ChatServer) (sender : Nat) (receiver : String)
    (h : s.nicknames_.keys.filter (fun k => k ≠ s.getNickname sender) ≠ []) :
    s.notFoundMessage sender receiver =
      notFoundHeader receiver ++
        ", ".intercalate (s.nicknames_.keys.filter (fun k => k ≠ s.getNickname sender)) ++
        "\x1b[0m" := by
  have hne : s.nicknames_.entries ≠ [] := by
    intro hnil
    apply h
    unfold NickMap.keys
    rw [hnil]
    rfl
  unfold notFoundMessage
  simp only [hne, ne_eq, not_false_eq_true, if_true]
  rw [foldl_available]
  have hk : List.map Prod.fst s.nicknames_.entries = s.nicknames_.keys := rfl
  rw [hk, withTrailingSeparators_eq h, ← String.append_assoc, pop_back_twice]
  rfl

/-- Without another nickname online the reply carries no list; the two `pop_back` calls of a
non-empty registry then remove the `": "` that ends the header. -/
theorem notFoundMessage_alone (s : ChatServer) (sender : Nat) (receiver : String)
    (h : s.nicknames_.keys.filter (fun k => k ≠ s.getNickname sender) = []) :
    s.notFoundMessage sender receiver =
      "\x1b[1;31m[System] Error: User '" ++ receiver ++ "' not found\x1b[0m" ++
        ((if s.nicknames_.entries ≠ [] then "\n\x1b[1;36mAvailable users"
          else "\n\x1b[1;36mAvailable users: ") ++ "\x1b[0m") := by
  have hk : List.map Prod.fst s.nicknames_.entries = s.nicknames_.keys := rfl
  unfold notFoundMessage
  simp only
  rw [foldl_available, hk, h]
  simp only [withTrailingSeparators, String.append_empty]
  split_ifs with hne
  · have hs : ("\n\x1b[1;36mAvailable users: " : String) =
        "\n\x1b[1;36mAvailable users" ++ ⟨[':', ' ']⟩ := by decide
    have hpop : pop_back (pop_back
        ("\x1b[1;31m[System] Error: User '" ++ receiver ++ "' not found\x1b[0m" ++
          "\n\x1b[1;36mAvailable users: ")) =
        "\x1b[1;31m[System] Error: User '" ++ receiver ++ "' not found\x1b[0m" ++
          "\n\x1b[1;36mAvailable users" := by
      rw [hs, ← String.append_assoc]
      exact pop_back_two _ ':' ' '
    rw [hpop, String.append_assoc]
  · rw [String.append_assoc]

end ChatServer

/-! ### Wire decoding -/

theorem findChar_append_of_not_mem (c : Char) (x rest : List Char) (hx : c ∉ x) :
    findChar c (x ++ c :: rest) = some x.length := by
  induction x with
  | nil => simp [findChar]
  | cons y ys ih =>
    have hy : y ≠ c := fun h => hx (h ▸ List.mem_cons_self _ _)
    have hys : c ∉ ys := fun h => hx (List.mem_cons_of_mem _ h)
    simp [findChar, hy, ih hys]

theorem findChar_eq_none (c : Char) (x : List Char) (hx : c ∉ x) : findChar c x = none := by
  induction x with
  | nil => rfl
  | cons y ys ih =>
    have hy : y ≠ c := fun h => hx (h ▸ List.mem_cons_self _ _)
    have hys : c ∉ ys := fun h => hx (List.mem_cons_of_mem _ h)
    simp [findChar, hy, ih hys]

theorem find_at (s : String) (c : Char) (front rest : List Char) (h : s.data = front ++ rest) :
    find s c front.length = (findChar c rest).map (· + front.length) := by
  unfold find
  rw [h, List.drop_left]

theorem substr_at (s : String) (front mid back : List Char)
    (h : s.data = front ++ (mid ++ back)) :
    substr s front.length mid.length = .ok ⟨mid⟩ := by
  have hlen : front.length ≤ s.length := by
    show front.length ≤ s.data.length
    rw [h, List.length_append]; omega
  unfold substr
  rw [if_pos hlen, h, List.drop_left, List.take_left]

theorem substrFrom_at (s : String) (front rest : List Char) (h : s.data = front ++ rest) :
    substrFrom s front.length = .ok ⟨rest⟩ := by
  have hlen : front.length ≤ s.length := by
    show front.length ≤ s.data.length
    rw [h, List.length_append]; omega
  unfold substrFrom
  rw [if_pos hlen, h, List.drop_left]

/-- On a decimal integer in the range of `int`, `std::stoi` returns the integer. -/
theorem stoi_decimal {txt : String} {k : Int} (h : IsDecimalInt txt k)
    (hmin : INT_MIN ≤ k) (hmax : k ≤ INT_MAX) : stoi txt = .ok k := by
  obtain ⟨ds, hne, hd, hcase⟩ := h
  have htw : List.takeWhile isdigit ds = ds := List.takeWhile_eq_self_iff.2 hd
  rcases hcase with ⟨hdata, hk⟩ | ⟨hdata, hk⟩ | ⟨hdata, hk⟩
  · have : txt = ⟨ds⟩ := String.ext hdata
    rw [this, stoi_digits ds hne hd, ← hk, if_neg (not_lt.2 hmax)]
  · unfold stoi
    rw [hdata]
    have hdrop : List.dropWhile isspace ('-' :: ds) = '-' :: ds := by
      rw [List.dropWhile_cons]; rfl
    have hsign : stoiSign ('-' :: ds) = (true, ds) := rfl
    simp only [hdrop, hsign, htw, if_neg hne, if_true, ← hk]
    rw [if_neg (by rintro (h | h) <;> omega)]
  · unfold stoi
    rw [hdata]
    have hdrop : List.dropWhile isspace ('+' :: ds) = '+' :: ds := by
      rw [List.dropWhile_cons]; rfl
    have hsign : stoiSign ('+' :: ds) = (false, ds) := rfl
    simp only [hdrop, hsign, htw, if_neg hne, Bool.false_eq_true, if_false, ← hk]
    rw [if_neg (by rintro (h | h) <;> omega)]

theorem separator_not_mem_of_decimal {txt : String} {k : Int} (h : IsDecimalInt txt k) :
    '|' ∉ txt.data := by
  obtain ⟨ds, _, hd, hcase⟩ := h
  have hds : '|' ∉ ds := fun hmem => by
    have := hd _ hmem
    simp [isdigit] at this
  rcases hcase with ⟨hdata, _⟩ | ⟨hdata, _⟩ | ⟨hdata, _⟩ <;> rw [hdata]
  · exact hds
  · simpa using hds
  · simpa using hds

/-- The result of `deserialize` once the separator positions and the kind are known. -/
theorem deserialize_of_parts (E : MessageTypeDecl) (data a b c : String) (k : Int)
    (back : List Char) (third : Option Nat) (receiver : String)
    (hdata : data.data = a.data ++ '|' :: (b.data ++ '|' :: (c.data ++ back)))
    (ha : '|' ∉ a.data) (hb : '|' ∉ b.data) (hk : stoi a = .ok k)
    (hlen : (match third with
      | some p3 => p3 - (a.length + 1 + b.length) - 1
      | none => data.length - (a.length + 1 + b.length) - 1) = c.length)
    (hrecv : (match third with
      | some p3 => substrFrom data (p3 + 1)
      | none => .ok "") = .ok receiver)
    (h3 : find data '|' (a.length + 1 + b.length + 1) = third) :
    Message.deserialize E data = .ok ⟨k, b, c, receiver⟩ := by
  have h1 : find data '|' 0 = some a.length := by
    have := find_at data '|' [] (a.data ++ '|' :: (b.data ++ '|' :: (c.data ++ back))) hdata
    rw [findChar_append_of_not_mem _ _ _ ha] at this
    simpa using this
  have h2 : find data '|' (a.length + 1) = some (a.length + 1 + b.length) := by
    have hd2 : data.data = (a.data ++ ['|']) ++ (b.data ++ '|' :: (c.data ++ back)) := by
      rw [hdata]; simp
    have := find_at data '|' _ _ hd2
    rw [findChar_append_of_not_mem _ _ _ hb] at this
    simp only [List.length_append, List.length_singleton, Option.map_some'] at this
    rw [show a.data.length = a.length from rfl, show b.data.length = b.length from rfl] at this
    rw [this]; congr 1; omega
  have hs0 : substr data 0 a.length = .ok a := by
    have := substr_at data [] a.data ('|' :: (b.data ++ '|' :: (c.data ++ back))) hdata
    simpa using this
  have hs1 : substr data (a.length + 1) (a.length + 1 + b.length - a.length - 1) = .ok b := by
    have hd2 : data.data = (a.data ++ ['|']) ++ (b.data ++ '|' :: (c.data ++ back)) := by
      rw [hdata]; simp
    have := substr_at data _ b.data _ hd2
    simp only [List.length_append, List.length_singleton] at this
    rw [show a.data.length = a.length from rfl, show b.data.length = b.length from rfl] at this
    rw [show a.length + 1 + b.length - a.length - 1 = b.length by omega]
    exact this
  have hs2 : substr data (a.length + 1 + b.length + 1) c.length = .ok c := by
    have hd2 : data.data = (a.data ++ '|' :: (b.data ++ ['|'])) ++ (c.data ++ back) := by
      rw [hdata]; simp
    have := substr_at data _ c.data _ hd2
    simp only [List.length_append, List.length_singleton, List.length_cons] at this
    rw [show a.data.length = a.length from rfl, show b.data.length = b.length from rfl,
      show c.data.length = c.length from rfl] at this
    rw [show a.length + 1 + b.length + 1 = a.length + (b.length + 1 + 1) by omega]
    exact this
  unfold Message.deserialize
  rw [h1]
  simp only
  rw [h2]
  simp only
  rw [hs0, h3]
  simp only [Except.bind, hk]
  rw [hs1]
  simp only [hlen, hs2, hrecv]

theorem findChar_lt {c : Char} {l : List Char} {i : Nat} (h : findChar c l = some i) :
    i < l.length := by
  induction l generalizing i with
  | nil => simp [findChar] at h
  | cons x xs ih =>
    unfold findChar at h
    split_ifs at h with hx
    · cases h; simp
    · cases hf : findChar c xs with
      | none => rw [hf] at h; simp at h
      | some j =>
        rw [hf] at h
        simp only [Option.map_some', Option.some.injEq] at h
        have := ih hf
        simp only [List.length_cons]
        omega

theorem findChar_split {c : Char} {l : List Char} {i : Nat} (h : findChar c l = some i) :
    ∃ front back, l = front ++ c :: back ∧ front.length = i := by
  induction l generalizing i with
  | nil => simp [findChar] at h
  | cons x xs ih =>
    unfold findChar at h
    split_ifs at h with hx
    · cases h
      exact ⟨[], xs, by rw [hx]; rfl, rfl⟩
    · cases hf : findChar c xs with
      | none => rw [hf] at h; simp at h
      | some j =>
        rw [hf] at h
        simp only [Option.map_some', Option.some.injEq] at h
        obtain ⟨front, back, hsplit, hlen⟩ := ih hf
        exact ⟨x :: front, back, by rw [hsplit]; rfl, by simp [hlen, h]⟩

theorem find_bounds {s : String} {c : Char} {pos i : Nat} (h : find s c pos = some i) :
    pos ≤ i ∧ i < s.length := by
  unfold find at h
  cases hf : findChar c (s.data.drop pos) with
  | none => rw [hf] at h; simp at h
  | some j =>
    rw [hf] at h
    simp only [Option.map_some', Option.some.injEq] at h
    have hj := findChar_lt hf
    rw [List.length_drop] at hj
    have : s.length = s.data.length := rfl
    omega

/-- No exception leaves `Message::deserialize`: every `substr` outside the `try` block is
called with a position inside the string. -/
theorem deserialize_never_throws (E : MessageTypeDecl) (data : String) :
    ∃ m, Message.deserialize E data = .ok m := by
  unfold Message.deserialize
  cases h1 : find data '|' 0 with
  | none => exact ⟨_, rfl⟩
  | some pos1 =>
    simp only
    cases h2 : find data '|' (pos1 + 1) with
    | none => exact ⟨_, rfl⟩
    | some pos2 =>
      simp only
      have hb2 := find_bounds h2
      cases hty : (substr data 0 pos1).bind stoi with
      | error e => exact ⟨_, rfl⟩
      | ok type =>
        simp only
        have hs1 : substr data (pos1 + 1) (pos2 - pos1 - 1) =
            .ok ⟨(data.data.drop (pos1 + 1)).take (pos2 - pos1 - 1)⟩ := by
          unfold substr; rw [if_pos (by omega)]
        cases h3 : find data '|' (pos2 + 1) with
        | none =>
          have hs2 : substr data (pos2 + 1) (data.length - pos2 - 1) =
              .ok ⟨(data.data.drop (pos2 + 1)).take (data.length - pos2 - 1)⟩ := by
            unfold substr; rw [if_pos (by omega)]
          rw [hs1, hs2]
          exact ⟨_, rfl⟩
        | some pos3 =>
          have hb3 := find_bounds h3
          have hs2 : substr data (pos2 + 1) (pos3 - pos2 - 1) =
              .ok ⟨(data.data.drop (pos2 + 1)).take (pos3 - pos2 - 1)⟩ := by
            unfold substr; rw [if_pos (by omega)]
          have hs3 : substrFrom data (pos3 + 1) = .ok ⟨data.data.drop (pos3 + 1)⟩ := by
            unfold substrFrom; rw [if_pos (by omega)]
          simp only
          rw [hs1, hs2, hs3]
          exact ⟨_, rfl⟩

/-- With fewer than two separators `Message::deserialize` returns a synthetic `ERROR`
Broadcast that says which separator is missing. -/
theorem deserialize_few_separators (E : MessageTypeDecl) (data : String)
    (h : data.data.count '|' < 2) :
    Message.deserialize E data =
      .ok ⟨E.Broadcast, "ERROR", "Invalid message format (no first separator)", ""⟩ ∨
    Message.deserialize E data =
      .ok ⟨E.Broadcast, "ERROR", "Invalid message format (no second separator)", ""⟩ := by
  unfold Message.deserialize
  cases h1 : find data '|' 0 with
  | none => exact Or.inl rfl
  | some pos1 =>
    simp only
    cases h2 : find data '|' (pos1 + 1) with
    | none => exact Or.inr rfl
    | some pos2 =>
      exfalso
      unfold find at h1 h2
      rw [List.drop_zero] at h1
      cases hf1 : findChar '|' data.data with
      | none => rw [hf1] at h1; simp at h1
      | some i =>
        rw [hf1] at h1
        simp only [Option.map_some', Option.some.injEq, Nat.add_zero] at h1
        subst h1
        obtain ⟨front, back, hsplit, hlen⟩ := findChar_split hf1
        have hdrop : data.data.drop (i + 1) = back := by
          rw [hsplit, ← hlen]
          have : front ++ '|' :: back = (front ++ ['|']) ++ back := by simp
          rw [this, show front.length + 1 = (front ++ ['|']).length by simp, List.drop_left]
        rw [hdrop] at h2
        cases hf2 : findChar '|' back with
        | none => rw [hf2] at h2; simp at h2
        | some j =>
          obtain ⟨f2, b2, hsplit2, _⟩ := findChar_split hf2
          rw [hsplit, hsplit2] at h
          simp only [List.count_append, List.count_cons_self] at h
          omega

theorem findChar_of_mem {c : Char} {l : List Char} (h : c ∈ l) : ∃ i, findChar c l = some i := by
  induction l with
  | nil => simp at h
  | cons x xs ih =>
    unfold findChar
    by_cases hx : x = c
    · exact ⟨0, by rw [if_pos hx]⟩
    · obtain ⟨j, hj⟩ := ih ((List.mem_cons.1 h).resolve_left (fun heq => hx heq.symm))
      exact ⟨j + 1, by rw [if_neg hx, hj]; rfl⟩

/-- With two separators and a kind field on which `std::stoi` throws (no digit after the
optional white space and sign, or a value outside `int`), `Message::deserialize` returns the
synthetic `ERROR` Broadcast "Invalid message type". -/
theorem deserialize_invalid_type (E : MessageTypeDecl) (a rest : String) (e : StdException)
    (ha : '|' ∉ a.data) (hrest : '|' ∈ rest.data) (hst : stoi a = .error e) :
    Message.deserialize E (a ++ "|" ++ rest) =
      .ok ⟨E.Broadcast, "ERROR", "Invalid message type", ""⟩ := by
  have hdata : (a ++ "|" ++ rest).data = a.data ++ '|' :: rest.data := by
    simp [String.data_append]
  have hdata2 : (a ++ "|" ++ rest).data = (a.data ++ ['|']) ++ rest.data := by
    rw [hdata]; simp
  have h1 : find (a ++ "|" ++ rest) '|' 0 = some a.length := by
    have := find_at _ '|' [] (a.data ++ '|' :: rest.data) hdata
    rw [findChar_append_of_not_mem _ _ _ ha] at this
    simpa using this
  obtain ⟨j, hj⟩ := findChar_of_mem hrest
  have h2 : find (a ++ "|" ++ rest) '|' (a.length + 1) = some (j + (a.length + 1)) := by
    have := find_at _ '|' _ _ hdata2
    rw [hj] at this
    simpa using this
  have hs0 : substr (a ++ "|" ++ rest) 0 a.length = .ok a := by
    have := substr_at _ [] a.data ('|' :: rest.data) hdata
    simpa using this
  unfold Message.deserialize
  rw [h1]
  simp only
  rw [h2]
  simp only
  rw [hs0]
  simp only [Except.bind, hst]

/-! ### Claims about the registry -/

/-- C1: registry consistency is an invariant of every sequence of operations taken one at a
time.  Starting from an empty registry, after any sequence of registrations by the accept loop
(default nickname `User<getNextAvailableUserNumber()>`, skipped when the socket is already
registered), `removeClient` calls and `NickChange` dispatches, every live session has exactly
one nickname-map entry, stored under its current nickname and pointing back to it, no nickname
maps to a session outside the live set, and no two live sessions share a nickname.  A
registration step receives from `std::make_shared` an address that is not a registered session
and finds fewer than `INT_MAX` nicknames in the registry (`Op.Admissible`). -/
theorem C1_registry_consistent (E : MessageTypeDecl) (s : ChatServer) (h : Reachable E s) :
    Consistent s :=
  (consistent_iff_lookup s).2 (lookupConsistent_of_reachable E h)

theorem C1_registry_consistent_witness :
    Consistent
      (Op.apply MessageType
        (Op.apply MessageType
          (Op.apply MessageType (ChatServer.init (fun _ => ⟨true, -1, "", false⟩) true)
            (Op.accept 4 100))
          (Op.dispatch 100 ⟨2, "User1", "Bob", ""⟩))
        (Op.remove 100)) :=
  C1_registry_consistent MessageType _
    (Reachable.step _ _
      (Reachable.step _ _
        (Reachable.step _ _ (Reachable.start _ rfl rfl) ⟨by decide, by decide⟩)
        rfl)
      trivial)

/-- C3: when a session `p` registered under its nickname dispatches `NickChange(n)` and `n` is
currently the nickname-map key of a different session `q`, the nickname map, the live set and
the nickname fields of both sessions (of every session) are unchanged, `p` receives exactly one
message, the "already taken" error, and no other session receives anything. -/
theorem C3_nickChange_taken (E : MessageTypeDecl) (s : ChatServer) (p q : Nat) (msg : Message)
    (hmsg : msg.type_ = E.NickChange)
    (hown : s.nicknames_.find (s.getNickname p) = some p)
    (hq : s.nicknames_.find msg.content_ = some q) (hqp : q ≠ p) :
    (s.processMessage E p msg).nicknames_ = s.nicknames_ ∧
    (s.processMessage E p msg).clients_ = s.clients_ ∧
    (s.processMessage E p msg).getNickname p = s.getNickname p ∧
    (s.processMessage E p msg).getNickname q = s.getNickname q ∧
    (∀ x, (s.processMessage E p msg).getNickname x = s.getNickname x) ∧
    (s.processMessage E p msg).sent =
      s.sent ++ [(p, ChatServer.wire (ChatServer.takenMessage msg.content_))] ∧
    received s (s.processMessage E p msg) p =
      [ChatServer.wire (ChatServer.takenMessage msg.content_)] ∧
    (∀ x, x ≠ p → received s (s.processMessage E p msg) x = []) := by
  have hne : msg.content_ ≠ s.getNickname p := by
    intro heq
    rw [heq, hown] at hq
    exact hqp (Option.some.inj hq).symm
  have htaken : (s.nicknames_.find msg.content_).isSome ∧ msg.content_ ≠ s.getNickname p :=
    ⟨by simp [hq], hne⟩
  rw [ChatServer.processMessage_nickChange E s p msg hmsg, if_pos htaken]
  have hsent : (s.sendMessage p (ChatServer.takenMessage msg.content_)).sent =
      s.sent ++ [(p, ChatServer.wire (ChatServer.takenMessage msg.content_))] := rfl
  refine ⟨rfl, rfl, ChatServer.sendMessage_getNickname _ _ _ _,
    ChatServer.sendMessage_getNickname _ _ _ _,
    fun x => ChatServer.sendMessage_getNickname _ _ _ _, hsent, ?_, ?_⟩
  · rw [received_of_sent hsent p]; simp
  · intro x hx
    rw [received_of_sent hsent x]
    simp [Ne.symm hx]

theorem C3_nickChange_taken_witness :
    (ChatServer.processMessage MessageType
      ⟨fun q => if q = 100 then ⟨true, 4, "User1", true⟩ else ⟨true, 5, "User2", true⟩,
        ⟨[100, 200], by decide⟩, ⟨[("User1", 100), ("User2", 200)], by decide⟩, [], true, []⟩
      100 ⟨2, "User1", "User2", ""⟩).sent =
      [] ++ [(100, ChatServer.wire (ChatServer.takenMessage "User2"))] :=
  (C3_nickChange_taken MessageType
    ⟨fun q => if q = 100 then ⟨true, 4, "User1", true⟩ else ⟨true, 5, "User2", true⟩,
      ⟨[100, 200], by decide⟩, ⟨[("User1", 100), ("User2", 200)], by decide⟩, [], true, []⟩
    100 200 ⟨2, "User1", "User2", ""⟩ rfl (by decide) (by decide) (by decide)).2.2.2.2.2.1

/-- C4: `removeClient(c)` is a conditional compare-and-erase.  The nickname-map entry under the
current nickname of `c` is removed exactly when it points to `c`; every entry that points to a
different session, also one stored under the nickname string of `c`, is unchanged, as is every
entry under another key; every other session stays in the live set, and `c` is not in the live
set afterwards.  Nothing is sent and no object is modified. -/
theorem C4_removeClient_compare_and_erase (s : ChatServer) (c : Nat) :
    (s.nicknames_.find (s.getNickname c) = some c →
      (s.removeClient c).nicknames_ = s.nicknames_.erase (s.getNickname c) ∧
      (s.removeClient c).nicknames_.find (s.getNickname c) = none) ∧
    (s.nicknames_.find (s.getNickname c) ≠ some c →
      (s.removeClient c).nicknames_ = s.nicknames_) ∧
    (∀ k q, s.nicknames_.find k = some q → q ≠ c →
      (s.removeClient c).nicknames_.find k = some q) ∧
    (∀ k, k ≠ s.getNickname c →
      (s.removeClient c).nicknames_.find k = s.nicknames_.find k) ∧
    (∀ q, q ≠ c → (q ∈ (s.removeClient c).clients_.elems ↔ q ∈ s.clients_.elems)) ∧
    c ∉ (s.removeClient c).clients_.elems ∧
    (s.removeClient c).clients_ = s.clients_.erase c ∧
    (s.removeClient c).heap = s.heap ∧
    (s.removeClient c).sent = s.sent := by
  have hclients : (s.removeClient c).clients_ = s.clients_.erase c := by
    unfold ChatServer.removeClient
    dsimp only
    split
    · split_ifs <;> rfl
    · rfl
  have hframe : (s.removeClient c).heap = s.heap ∧ (s.removeClient c).sent = s.sent := by
    unfold ChatServer.removeClient
    dsimp only
    split
    · split_ifs <;> exact ⟨rfl, rfl⟩
    · exact ⟨rfl, rfl⟩
  have hyes : s.nicknames_.find (s.getNickname c) = some c →
      (s.removeClient c).nicknames_ = s.nicknames_.erase (s.getNickname c) := by
    intro h
    unfold ChatServer.removeClient
    rw [h]
    simp
  have hno : s.nicknames_.find (s.getNickname c) ≠ some c →
      (s.removeClient c).nicknames_ = s.nicknames_ := by
    intro h
    unfold ChatServer.removeClient
    dsimp only
    split
    · rename_i p hp
      have hpc : p ≠ c := by
        rintro rfl
        exact h hp
      rw [if_neg hpc]
    · rfl
  refine ⟨fun h => ⟨hyes h, ?_⟩, hno, ?_, ?_, ?_, ?_, hclients, hframe.1, hframe.2⟩
  · rw [hyes h]; exact NickMap.find_erase_self _ _
  · intro k q hk hqc
    by_cases h : s.nicknames_.find (s.getNickname c) = some c
    · have hkne : k ≠ s.getNickname c := by
        rintro rfl
        rw [h] at hk
        exact hqc (Option.some.inj hk).symm
      rw [hyes h, NickMap.find_erase_ne _ hkne]
      exact hk
    · rw [hno h]; exact hk
  · intro k hk
    by_cases h : s.nicknames_.find (s.getNickname c) = some c
    · rw [hyes h, NickMap.find_erase_ne _ hk]
    · rw [hno h]
  · intro q hq
    rw [hclients, PtrSet.mem_erase]
    exact ⟨fun h => h.2, fun h => ⟨hq, h⟩⟩
  · rw [hclients, PtrSet.mem_erase]
    exact fun h => h.1 rfl

/-- Scheduling is idempotent and the drain meets each pending session once.  Calling
`scheduleClientRemoval(c)` twice leaves the pending list as after one call; in a pending list
without duplicates `c` then occurs exactly once and the list stays without duplicates.  The
following `processScheduledRemovals` calls `clientDisconnected(c)` exactly once (between the
calls for the sessions pending before and after it, none of which is `c`), leaves the pending
list empty and `c` outside the live set. -/
theorem scheduleClientRemoval_drain_once (dangling : ChatServer → Nat → String)
    (s : ChatServer) (c : Nat) (hnd : s.clients_to_remove_.Nodup) :
    (s.scheduleClientRemoval c).scheduleClientRemoval c = s.scheduleClientRemoval c ∧
    (s.scheduleClientRemoval c).clients_to_remove_.count c = 1 ∧
    (s.scheduleClientRemoval c).clients_to_remove_.Nodup ∧
    ((s.scheduleClientRemoval c).processScheduledRemovals dangling).clients_to_remove_ = [] ∧
    c ∉ ((s.scheduleClientRemoval c).processScheduledRemovals dangling).clients_.elems ∧
    (∃ pre post, (s.scheduleClientRemoval c).clients_to_remove_ = pre ++ c :: post ∧
      c ∉ pre ∧ c ∉ post ∧
      (pre.foldl (ChatServer.clientDisconnected dangling) (s.scheduleClientRemoval c)).running_ =
        s.running_ ∧
      (s.scheduleClientRemoval c).processScheduledRemovals dangling =
        { post.foldl (ChatServer.clientDisconnected dangling)
            ((pre.foldl (ChatServer.clientDisconnected dangling)
              (s.scheduleClientRemoval c)).clientDisconnected dangling c) with
          clients_to_remove_ := [] }) ∧
    (s.clients_to_remove_ = [] →
      ((s.scheduleClientRemoval c).scheduleClientRemoval c).processScheduledRemovals dangling =
        { (s.scheduleClientRemoval c).clientDisconnected dangling c with
          clients_to_remove_ := [] }) := by
  have hpend := ChatServer.scheduleClientRemoval_pending s c
  have hmem : c ∈ (s.scheduleClientRemoval c).clients_to_remove_ := by
    rw [hpend]
    split_ifs with h
    · exact h
    · simp
  have hnodup : (s.scheduleClientRemoval c).clients_to_remove_.Nodup := by
    rw [hpend]
    split_ifs with h
    · exact hnd
    · rw [List.nodup_append]
      refine ⟨hnd, List.nodup_singleton c, ?_⟩
      intro a ha hb
      rw [List.mem_singleton] at hb
      exact h (hb ▸ ha)
  have hidem : (s.scheduleClientRemoval c).scheduleClientRemoval c = s.scheduleClientRemoval c :=
    ChatServer.scheduleClientRemoval_of_mem hmem
  obtain ⟨pre, post, hsplit⟩ := List.append_of_mem hmem
  have hparts : c ∉ pre ∧ c ∉ post := by
    have h := hnodup
    rw [hsplit, List.nodup_append] at h
    obtain ⟨_, h2, h3⟩ := h
    exact ⟨fun hc => h3 hc (List.mem_cons_self _ _), (List.nodup_cons.1 h2).1⟩
  have hdrain : (s.scheduleClientRemoval c).processScheduledRemovals dangling =
      { post.foldl (ChatServer.clientDisconnected dangling)
          ((pre.foldl (ChatServer.clientDisconnected dangling)
            (s.scheduleClientRemoval c)).clientDisconnected dangling c) with
        clients_to_remove_ := [] } := by
    unfold ChatServer.processScheduledRemovals
    rw [hsplit, List.foldl_append, List.foldl_cons]
  refine ⟨hidem, List.count_eq_one_of_mem hnodup hmem, hnodup, rfl, ?_,
    ⟨pre, post, hsplit, hparts.1, hparts.2, ?_, hdrain⟩, ?_⟩
  · rw [hdrain]
    show c ∉ (post.foldl (ChatServer.clientDisconnected dangling) _).clients_.elems
    apply ChatServer.foldl_clientDisconnected_not_mem
    rw [ChatServer.clientDisconnected_clients, PtrSet.mem_erase]
    exact fun h => h.1 rfl
  · rw [ChatServer.foldl_clientDisconnected_running, ChatServer.scheduleClientRemoval_running]
  · intro hempty
    rw [hidem]
    unfold ChatServer.processScheduledRemovals
    have hlist : (s.scheduleClientRemoval c).clients_to_remove_ = [c] := by
      rw [hpend, hempty]
      simp
    rw [hlist]
    rfl

/-- One `clientDisconnected(c)` on a running server with a consistent registry: `c` leaves
the live set, no entry of the nickname map points to `c` any more (the entries of the other
sessions stay), and every remaining live session receives exactly one notice.  The name in the
notice is the result of the read through the dangling pointer, not a value of the registry. -/
theorem clientDisconnected_consistent (dangling : ChatServer → Nat → String)
    (t : ChatServer) (c : Nat) (hcons : Consistent t) (hrun : t.running_ = true) :
    (t.clientDisconnected dangling c).clients_ = t.clients_.erase c ∧
    (∀ k, (t.clientDisconnected dangling c).nicknames_.find k ≠ some c) ∧
    (∀ k q, q ≠ c → ((t.clientDisconnected dangling c).nicknames_.find k = some q ↔
      t.nicknames_.find k = some q)) ∧
    (t.clientDisconnected dangling c).sent =
      t.sent ++ (t.clients_.erase c).elems.map
        (fun q => (q, ChatServer.wire
          (ChatServer.leftNotice (dangling (t.removeClient c) c)))) ∧
    (∀ q, received t (t.clientDisconnected dangling c) q =
      if q ∈ (t.clients_.erase c).elems then
        [ChatServer.wire (ChatServer.leftNotice (dangling (t.removeClient c) c))]
      else []) := by
  have hown := ChatServer.not_owned_after_removeClient hcons c
  have hread : ChatServer.readNicknameAfterRemoval dangling (t.removeClient c) c =
      dangling (t.removeClient c) c := by
    unfold ChatServer.readNicknameAfterRemoval
    rw [hown]
    rfl
  have hsent := ChatServer.clientDisconnected_sent dangling t c hrun
  rw [hread] at hsent
  refine ⟨ChatServer.clientDisconnected_clients dangling t c, ?_, ?_, hsent, fun q => ?_⟩
  · intro k
    rw [ChatServer.clientDisconnected_nicknames]
    exact ChatServer.removeClient_find_ne hcons c k
  · intro k q hq
    rw [ChatServer.clientDisconnected_nicknames]
    exact ChatServer.removeClient_find_other t c k hq
  · rw [received_of_sent hsent q]
    exact received_map_const _ (t.clients_.erase c).nodup _ q

/-- C5: the departure notice is built from a destroyed session.  On the running server with
the live sessions `User1` (object 100) and `User2` (object 200), scheduling 100 twice leaves
the pending list `[100]`, and the drain empties it, erases 100 from the live set and its entry
from the nickname map, and sends one notice, to the remaining session 200.  The name in that
notice is not taken from the registry: `clientDisconnected` reads `client->getNickname()`
after `removeClient` has erased the last owners of the object (none is left), so the notice
carries whatever the read through the dangling pointer returns; when that is the empty string,
the notice sent is not the one for `User1`. -/
theorem C5_departure_notice_reads_destroyed_session :
    (((ChatServer.mk
        (fun q => if q = 100 then ⟨true, 4, "User1", true⟩ else ⟨true, 5, "User2", true⟩)
        ⟨[100, 200], by decide⟩ ⟨[("User1", 100), ("User2", 200)], by decide⟩ [] true
        []).scheduleClientRemoval 100).scheduleClientRemoval 100).clients_to_remove_ = [100] ∧
    ((ChatServer.mk
        (fun q => if q = 100 then ⟨true, 4, "User1", true⟩ else ⟨true, 5, "User2", true⟩)
        ⟨[100, 200], by decide⟩ ⟨[("User1", 100), ("User2", 200)], by decide⟩ [100] true
        []).removeClient 100).owned 100 = false ∧
    (∀ dangling : ChatServer → Nat → String,
      ((((ChatServer.mk
        (fun q => if q = 100 then ⟨true, 4, "User1", true⟩ else ⟨true, 5, "User2", true⟩)
        ⟨[100, 200], by decide⟩ ⟨[("User1", 100), ("User2", 200)], by decide⟩ [] true
        []).scheduleClientRemoval 100).scheduleClientRemoval 100).processScheduledRemovals
          dangling).clients_to_remove_ = [] ∧
      ((((ChatServer.mk
        (fun q => if q = 100 then ⟨true, 4, "User1", true⟩ else ⟨true, 5, "User2", true⟩)
        ⟨[100, 200], by decide⟩ ⟨[("User1", 100), ("User2", 200)], by decide⟩ [] true
        []).scheduleClientRemoval 100).scheduleClientRemoval 100).processScheduledRemovals
          dangling).clients_.elems = [200] ∧
      ((((ChatServer.mk
        (fun q => if q = 100 then ⟨true, 4, "User1", true⟩ else ⟨true, 5, "User2", true⟩)
        ⟨[100, 200], by decide⟩ ⟨[("User1", 100), ("User2", 200)], by decide⟩ [] true
        []).scheduleClientRemoval 100).scheduleClientRemoval 100).processScheduledRemovals
          dangling).nicknames_.entries = [("User2", 200)] ∧
      ((((ChatServer.mk
        (fun q => if q = 100 then ⟨true, 4, "User1", true⟩ else ⟨true, 5, "User2", true⟩)
        ⟨[100, 200], by decide⟩ ⟨[("User1", 100), ("User2", 200)], by decide⟩ [] true
        []).scheduleClientRemoval 100).scheduleClientRemoval 100).processScheduledRemovals
          dangling).sent =
        [(200, ChatServer.wire (ChatServer.leftNotice (dangling
          ((ChatServer.mk
            (fun q => if q = 100 then ⟨true, 4, "User1", true⟩ else ⟨true, 5, "User2", true⟩)
            ⟨[100, 200], by decide⟩ ⟨[("User1", 100), ("User2", 200)], by decide⟩ [100] true
            []).removeClient 100) 100)))]) ∧
    ((((ChatServer.mk
        (fun q => if q = 100 then ⟨true, 4, "User1", true⟩ else ⟨true, 5, "User2", true⟩)
        ⟨[100, 200], by decide⟩ ⟨[("User1", 100), ("User2", 200)], by decide⟩ [] true
        []).scheduleClientRemoval 100).scheduleClientRemoval 100).processScheduledRemovals
          (fun _ _ => "")).sent ≠
      [(200, ChatServer.wire (ChatServer.leftNotice "User1"))] := by
  refine ⟨by decide, by decide, fun dangling => ⟨rfl, rfl, rfl, rfl⟩, by decide⟩

/-- C6: `broadcast(t, S)` delivers `t` exactly once to each live session other than `S`, never
to `S`, to no session outside the live set, and leaves the live set and the nickname map (and
the pending list and every nickname) unchanged; with no exclusion (`nullptr`) every live
session receives `t` exactly once. -/
theorem C6_broadcast_delivery (s : ChatServer) (t : String) (S : Option Nat) :
    (s.broadcast t S).sent =
      s.sent ++ (s.clients_.elems.filter (fun q => some q ≠ S)).map
        (fun q => (q, ChatServer.wire t)) ∧
    (∀ q, received s (s.broadcast t S) q =
      if q ∈ s.clients_.elems ∧ some q ≠ S then [ChatServer.wire t] else []) ∧
    (∀ q, some q = S → received s (s.broadcast t S) q = []) ∧
    (∀ q, q ∉ s.clients_.elems → received s (s.broadcast t S) q = []) ∧
    (∀ q, q ∈ s.clients_.elems → received s (s.broadcast t none) q = [ChatServer.wire t]) ∧
    (s.broadcast t S).clients_ = s.clients_ ∧
    (s.broadcast t S).nicknames_ = s.nicknames_ ∧
    (s.broadcast t S).clients_to_remove_ = s.clients_to_remove_ ∧
    (∀ q, (s.broadcast t S).getNickname q = s.getNickname q) := by
  have hrecv : ∀ (ex : Option Nat) (q : Nat), received s (s.broadcast t ex) q =
      if q ∈ s.clients_.elems ∧ some q ≠ ex then [ChatServer.wire t] else [] := by
    intro ex q
    rw [received_of_sent (ChatServer.broadcast_sent s t ex) q,
      received_map_const _ (s.clients_.nodup.filter _) _ q]
    simp only [List.mem_filter, decide_eq_true_eq]
  refine ⟨ChatServer.broadcast_sent s t S, hrecv S, ?_, ?_, ?_, ChatServer.broadcast_clients s t S,
    ChatServer.broadcast_nicknames s t S, ChatServer.broadcast_pending s t S,
    ChatServer.broadcast_getNickname s t S⟩
  · intro q hq
    rw [hrecv S q, if_neg (fun h => h.2 hq)]
  · intro q hq
    rw [hrecv S q, if_neg (fun h => hq h.1)]
  · intro q hq
    rw [hrecv none q, if_pos ⟨hq, by simp⟩]

/-- C7: on every registry of fewer than `INT_MAX` nicknames, whatever follows `User` in them
(suffixes that are empty, signed, not numeric or too long for an `int` are ignored),
`getNextAvailableUserNumber` returns the smallest positive integer `N` such that no current
nickname is `User` followed by a digit string denoting `N`; so the default nickname `User<N>`
is not a current nickname.  On an empty registry it returns 1, with `User1` and `User3` present
it returns 2, and malformed suffixes do not count. -/
theorem C7_next_available_user_number (s : ChatServer)
    (hsize : s.nicknames_.keys.length < 2147483647) :
    0 < s.getNextAvailableUserNumber ∧
    (∀ nick ∈ s.nicknames_.keys, ¬ DenotesUser nick s.getNextAvailableUserNumber) ∧
    (∀ M : Int, 0 < M → M < s.getNextAvailableUserNumber →
      ∃ nick ∈ s.nicknames_.keys, DenotesUser nick M) ∧
    "User" ++ to_string s.getNextAvailableUserNumber ∉ s.nicknames_.keys ∧
    (s.nicknames_.keys = [] →
      s.getNextAvailableUserNumber = 1 ∧ "User" ++ to_string s.getNextAvailableUserNumber = "User1") ∧
    (s.nicknames_.keys = ["User1", "User3"] →
      s.getNextAvailableUserNumber = 2 ∧ "User" ++ to_string s.getNextAvailableUserNumber = "User2") ∧
    (s.nicknames_.keys =
        ["User", "User+1", "User-1", "User1x", "User2", "User99999999999", "Userabc"] →
      s.getNextAvailableUserNumber = 1) := by
  obtain ⟨h1, _, h3, h4⟩ := ChatServer.getNextAvailableUserNumber_spec s hsize
  refine ⟨h1, h3, h4, ChatServer.defaultNick_fresh s hsize, ?_, ?_, ?_⟩
  · intro hk
    have : s.getNextAvailableUserNumber = 1 := by
      unfold ChatServer.getNextAvailableUserNumber
      rw [hk]
      decide
    rw [this]
    exact ⟨rfl, by decide⟩
  · intro hk
    have : s.getNextAvailableUserNumber = 2 := by
      unfold ChatServer.getNextAvailableUserNumber
      rw [hk]
      decide
    rw [this]
    exact ⟨rfl, by decide⟩
  · intro hk
    unfold ChatServer.getNextAvailableUserNumber
    rw [hk]
    decide

theorem C7_next_available_user_number_witness :
    ChatServer.getNextAvailableUserNumber
      ⟨fun _ => ⟨true, 4, "User1", true⟩, ⟨[100, 200], by decide⟩,
        ⟨[("User1", 100), ("User3", 200)], by decide⟩, [], true, []⟩ = 2 :=
  ((C7_next_available_user_number
    ⟨fun _ => ⟨true, 4, "User1", true⟩, ⟨[100, 200], by decide⟩,
      ⟨[("User1", 100), ("User3", 200)], by decide⟩, [], true, []⟩
    (by decide)).2.2.2.2.2.1 rfl).1

/-- C8: dispatching a `Private` message whose receiver is not a key of the nickname map sends
exactly one message, to the sender only, and changes no registry state.  The message names the
missing receiver, and when at least one nickname other than the sender's own is online it
lists exactly those nicknames, each once, separated by `", "` with no trailing separator. -/
theorem C8_private_receiver_missing (E : MessageTypeDecl) (s : ChatServer) (p : Nat)
    (msg : Message) (hmsg : msg.type_ = E.Private)
    (hmiss : s.nicknames_.find msg.receiver_ = none) :
    (s.processMessage E p msg).sent =
      s.sent ++ [(p, ChatServer.wire (s.notFoundMessage p msg.receiver_))] ∧
    received s (s.processMessage E p msg) p =
      [ChatServer.wire (s.notFoundMessage p msg.receiver_)] ∧
    (∀ q, q ≠ p → received s (s.processMessage E p msg) q = []) ∧
    (s.processMessage E p msg).clients_ = s.clients_ ∧
    (s.processMessage E p msg).nicknames_ = s.nicknames_ ∧
    (s.processMessage E p msg).clients_to_remove_ = s.clients_to_remove_ ∧
    (∀ q, (s.processMessage E p msg).getNickname q = s.getNickname q) ∧
    (∃ rest, s.notFoundMessage p msg.receiver_ =
      "\x1b[1;31m[System] Error: User '" ++ msg.receiver_ ++ "' not found\x1b[0m" ++ rest) ∧
    (s.nicknames_.keys.filter (fun k => k ≠ s.getNickname p) ≠ [] →
      s.notFoundMessage p msg.receiver_ =
        ChatServer.notFoundHeader msg.receiver_ ++
          ", ".intercalate (s.nicknames_.keys.filter (fun k => k ≠ s.getNickname p)) ++
          "\x1b[0m") ∧
    (s.nicknames_.keys.filter (fun k => k ≠ s.getNickname p)).Nodup ∧
    (∀ k, k ∈ s.nicknames_.keys.filter (fun k => k ≠ s.getNickname p) ↔
      (∃ q, s.nicknames_.find k = some q) ∧ k ≠ s.getNickname p) := by
  have hproc : s.processMessage E p msg =
      s.sendMessage p (s.notFoundMessage p msg.receiver_) := by
    rw [ChatServer.processMessage_private E s p msg hmsg, hmiss]
  rw [hproc]
  have hsent : (s.sendMessage p (s.notFoundMessage p msg.receiver_)).sent =
      s.sent ++ [(p, ChatServer.wire (s.notFoundMessage p msg.receiver_))] := rfl
  refine ⟨hsent, ?_, ?_, rfl, rfl, rfl, fun q => ChatServer.sendMessage_getNickname _ _ _ _,
    ?_, ChatServer.notFoundMessage_eq s p msg.receiver_, s.nicknames_.keys_nodup.filter _, ?_⟩
  · rw [received_of_sent hsent p]; simp
  · intro q hq
    rw [received_of_sent hsent q]
    simp [Ne.symm hq]
  · by_cases hothers : s.nicknames_.keys.filter (fun k => k ≠ s.getNickname p) = []
    · exact ⟨_, ChatServer.notFoundMessage_alone s p msg.receiver_ hothers⟩
    · refine ⟨"\n\x1b[1;36mAvailable users: " ++
        (", ".intercalate (s.nicknames_.keys.filter (fun k => k ≠ s.getNickname p)) ++
          "\x1b[0m"), ?_⟩
      rw [ChatServer.notFoundMessage_eq s p msg.receiver_ hothers]
      unfold ChatServer.notFoundHeader
      simp only [String.append_assoc]
  · intro k
    simp only [List.mem_filter, decide_eq_true_eq, ne_eq]
    constructor
    · rintro ⟨hk, hne⟩
      obtain ⟨e, he, rfl⟩ := List.mem_map.1 hk
      exact ⟨⟨e.2, (s.nicknames_.mem_entries_iff e.1 e.2).1 he⟩, hne⟩
    · rintro ⟨⟨q, hq⟩, hne⟩
      exact ⟨s.nicknames_.mem_keys_of_find hq, hne⟩

theorem C8_private_receiver_missing_witness :
    (ChatServer.processMessage MessageType
      ⟨fun q => if q = 100 then ⟨true, 4, "Bob", true⟩ else ⟨true, 5, "User2", true⟩,
        ⟨[100, 200], by decide⟩, ⟨[("Bob", 100), ("User2", 200)], by decide⟩, [], true, []⟩
      100 ⟨1, "Bob", "hi", "Nobody"⟩).nicknames_.entries = [("Bob", 100), ("User2", 200)] :=
  congrArg NickMap.entries
    (C8_private_receiver_missing MessageType
      ⟨fun q => if q = 100 then ⟨true, 4, "Bob", true⟩ else ⟨true, 5, "User2", true⟩,
        ⟨[100, 200], by decide⟩, ⟨[("Bob", 100), ("User2", 200)], by decide⟩, [], true, []⟩
      100 ⟨1, "Bob", "hi", "Nobody"⟩ rfl (by decide)).2.2.2.2.1

/-! ### Claims about the wire form -/

/-- C9: for a string with at least two `|` whose text `a` before the first `|` is a decimal
integer `k` in the range of `int`, `Message::deserialize` returns the message with kind tag
`k`, sender the text `b` between the first and second `|`, content the text `c` between the
second and third `|` (up to the end when there is no third) and receiver everything after the
third `|` (empty when there is none).  In particular `"0|alice|hello|"` decodes to a Broadcast
(tag 0) with sender `alice`, content `hello` and an empty receiver. -/
theorem C9_deserialize_fields (E : MessageTypeDecl) (a b c d : String) (k : Int)
    (hk : IsDecimalInt a k) (hmin : INT_MIN ≤ k) (hmax : k ≤ INT_MAX)
    (hb : '|' ∉ b.data) (hc : '|' ∉ c.data) :
    Message.deserialize E (a ++ "|" ++ b ++ "|" ++ c) = .ok ⟨k, b, c, ""⟩ ∧
    Message.deserialize E (a ++ "|" ++ b ++ "|" ++ c ++ "|" ++ d) = .ok ⟨k, b, c, d⟩ ∧
    Message.deserialize MessageType "0|alice|hello|" =
      .ok ⟨MessageType.Broadcast, "alice", "hello", ""⟩ := by
  have ha := separator_not_mem_of_decimal hk
  have hstoi := stoi_decimal hk hmin hmax
  have hbar : ("|" : String).data = ['|'] := rfl
  have hal : a.data.length = a.length := rfl
  have hbl : b.data.length = b.length := rfl
  have hcl : c.data.length = c.length := rfl
  have hpos2 : (a.data ++ '|' :: (b.data ++ ['|'])).length = a.length + 1 + b.length + 1 := by
    simp only [List.length_append, List.length_cons, List.length_nil, hal, hbl]
    omega
  refine ⟨?_, ?_, by decide⟩
  · have hdata : (a ++ "|" ++ b ++ "|" ++ c).data =
        a.data ++ '|' :: (b.data ++ '|' :: (c.data ++ [])) := by
      simp [String.data_append, hbar]
    have hdata2 : (a ++ "|" ++ b ++ "|" ++ c).data =
        (a.data ++ '|' :: (b.data ++ ['|'])) ++ c.data := by
      simp [String.data_append, hbar]
    have hlen : (a ++ "|" ++ b ++ "|" ++ c).length = a.length + 1 + b.length + 1 + c.length := by
      show (a ++ "|" ++ b ++ "|" ++ c).data.length = _
      rw [hdata]
      simp only [List.length_append, List.length_cons, List.length_nil, hal, hbl, hcl]
      omega
    have h3 : find (a ++ "|" ++ b ++ "|" ++ c) '|' (a.length + 1 + b.length + 1) = none := by
      have := find_at _ '|' _ _ hdata2
      rw [findChar_eq_none _ _ hc, hpos2] at this
      exact this
    exact deserialize_of_parts E _ a b c k [] none "" hdata ha hb hstoi
      (by simp only [hlen]; omega) rfl h3
  · have hdata : (a ++ "|" ++ b ++ "|" ++ c ++ "|" ++ d).data =
        a.data ++ '|' :: (b.data ++ '|' :: (c.data ++ '|' :: d.data)) := by
      simp [String.data_append, hbar]
    have hdata2 : (a ++ "|" ++ b ++ "|" ++ c ++ "|" ++ d).data =
        (a.data ++ '|' :: (b.data ++ ['|'])) ++ (c.data ++ '|' :: d.data) := by
      simp [String.data_append, hbar]
    have hdata3 : (a ++ "|" ++ b ++ "|" ++ c ++ "|" ++ d).data =
        (a.data ++ '|' :: (b.data ++ '|' :: (c.data ++ ['|']))) ++ d.data := by
      simp [String.data_append, hbar]
    have h3 : find (a ++ "|" ++ b ++ "|" ++ c ++ "|" ++ d) '|' (a.length + 1 + b.length + 1) =
        some (a.length + 1 + b.length + 1 + c.length) := by
      have := find_at _ '|' _ _ hdata2
      rw [findChar_append_of_not_mem _ _ _ hc, hpos2] at this
      rw [this, Option.map_some', hcl]
      congr 1; omega
    have hrecv : substrFrom (a ++ "|" ++ b ++ "|" ++ c ++ "|" ++ d)
        (a.length + 1 + b.length + 1 + c.length + 1) = .ok d := by
      have hpos3 : (a.data ++ '|' :: (b.data ++ '|' :: (c.data ++ ['|']))).length =
          a.length + 1 + b.length + 1 + c.length + 1 := by
        simp only [List.length_append, List.length_cons, List.length_nil, hal, hbl, hcl]
        omega
      have := substrFrom_at _ _ _ hdata3
      rw [hpos3] at this
      exact this
    exact deserialize_of_parts E _ a b c k ('|' :: d.data)
      (some (a.length + 1 + b.length + 1 + c.length)) d hdata ha hb hstoi
      (by simp only; omega) hrecv h3

theorem C9_deserialize_fields_witness :
    Message.deserialize MessageType ("7" ++ "|" ++ "bob" ++ "|" ++ "hi" ++ "|" ++ "al|ice") =
      .ok ⟨7, "bob", "hi", "al|ice"⟩ :=
  (C9_deserialize_fields MessageType "7" "bob" "hi" "al|ice" 7
    ⟨['7'], by decide, by decide, Or.inl ⟨rfl, by decide⟩⟩ (by decide) (by decide)
    (by decide) (by decide)).2.1

/-- C10 (the code departs from the claim): the kind field `12abc` of `"12abc|a|b"` is not an
integer, yet `Message::deserialize` returns an ordinary message with kind tag 12 instead of the
synthetic `ERROR` Broadcast, because `std::stoi` stops at the first character that is not a
digit and the rest of the field is never looked at. -/
theorem C10_deserialize_accepts_trailing_garbage :
    Message.deserialize MessageType "12abc|a|b" = .ok ⟨12, "a", "b", ""⟩ ∧
    (¬ ∃ k, IsDecimalInt "12abc" k) ∧
    Message.deserialize MessageType "12abc|a|b" ≠
      .ok ⟨MessageType.Broadcast, "ERROR", "Invalid message type", ""⟩ := by
  refine ⟨by decide, ?_, by decide⟩
  rintro ⟨k, ds, _, hd, hcase⟩
  have hdata : ("12abc" : String).data = ['1', '2', 'a', 'b', 'c'] := rfl
  rw [hdata] at hcase
  have hmem : 'a' ∈ ds := by
    rcases hcase with ⟨h, _⟩ | ⟨h, _⟩ | ⟨h, _⟩
    · rw [← h]; simp
    · simp at h
    · simp at h
  have := hd _ hmem
  simp [isdigit] at this

/-! ### Round trip of the wire form -/

theorem isDecimalInt_to_string (n : Int) : IsDecimalInt (to_string n) n := by
  refine ⟨natDigits n.natAbs, natDigits_ne_nil _, isdigit_natDigits _, ?_⟩
  rw [digitsValue_natDigits]
  unfold to_string
  by_cases h : n < 0
  · rw [if_pos h]
    exact Or.inr (Or.inl ⟨rfl, by omega⟩)
  · rw [if_neg h]
    exact Or.inl ⟨rfl, by omega⟩

/-- The four fields of a wire value whose first three fields hold no separator. -/
theorem deserialize_four_fields (E : MessageTypeDecl) (a b c d : String) (k : Int)
    (hstoi : stoi a = .ok k) (ha : '|' ∉ a.data) (hb : '|' ∉ b.data) (hc : '|' ∉ c.data) :
    Message.deserialize E (a ++ "|" ++ b ++ "|" ++ c ++ "|" ++ d) = .ok ⟨k, b, c, d⟩ := by
  have hbar : ("|" : String).data = ['|'] := rfl
  have hal : a.data.length = a.length := rfl
  have hbl : b.data.length = b.length := rfl
  have hcl : c.data.length = c.length := rfl
  have hpos2 : (a.data ++ '|' :: (b.data ++ ['|'])).length = a.length + 1 + b.length + 1 := by
    simp only [List.length_append, List.length_cons, List.length_nil, hal, hbl]
    omega
  have hpos3 : (a.data ++ '|' :: (b.data ++ '|' :: (c.data ++ ['|']))).length =
      a.length + 1 + b.length + 1 + c.length + 1 := by
    simp only [List.length_append, List.length_cons, List.length_nil, hal, hbl, hcl]
    omega
  have hdata : (a ++ "|" ++ b ++ "|" ++ c ++ "|" ++ d).data =
      a.data ++ '|' :: (b.data ++ '|' :: (c.data ++ '|' :: d.data)) := by
    simp [String.data_append, hbar]
  have hdata2 : (a ++ "|" ++ b ++ "|" ++ c ++ "|" ++ d).data =
      (a.data ++ '|' :: (b.data ++ ['|'])) ++ (c.data ++ '|' :: d.data) := by
    simp [String.data_append, hbar]
  have hdata3 : (a ++ "|" ++ b ++ "|" ++ c ++ "|" ++ d).data =
      (a.data ++ '|' :: (b.data ++ '|' :: (c.data ++ ['|']))) ++ d.data := by
    simp [String.data_append, hbar]
  have h3 : find (a ++ "|" ++ b ++ "|" ++ c ++ "|" ++ d) '|' (a.length + 1 + b.length + 1) =
      some (a.length + 1 + b.length + 1 + c.length) := by
    have := find_at _ '|' _ _ hdata2
    rw [findChar_append_of_not_mem _ _ _ hc, hpos2] at this
    rw [this, Option.map_some', hcl]
    congr 1; omega
  have hrecv : substrFrom (a ++ "|" ++ b ++ "|" ++ c ++ "|" ++ d)
      (a.length + 1 + b.length + 1 + c.length + 1) = .ok d := by
    have := substrFrom_at _ _ _ hdata3
    rw [hpos3] at this
    exact this
  exact deserialize_of_parts E _ a b c k ('|' :: d.data)
    (some (a.length + 1 + b.length + 1 + c.length)) d hdata ha hb hstoi
    (by simp only; omega) hrecv h3

/-- The `default:` case of `processMessage`: a kind that is no `case` label only reaches the
log. -/
theorem processMessage_unknown (E : MessageTypeDecl) (s : ChatServer) (sender : Nat)
    (msg : Message)
    (h : msg.type_ ∉ [E.Broadcast, E.Private, E.NickChange, E.Connect, E.Disconnect, E.UsersList]) :
    s.processMessage E sender msg = s := by
  simp only [List.mem_cons, List.mem_singleton, List.not_mem_nil, or_false, not_or] at h
  obtain ⟨h1, h2, h3, h4, h5, h6⟩ := h
  unfold ChatServer.processMessage
  rw [if_neg h1, if_neg h2, if_neg h3, if_neg (by rintro (h | h); exact h4 h; exact h5 h),
    if_neg h6]

/-! ### The command interpreter -/

theorem findFirstNotOf_all (chars l : List Char) (h : ∀ c ∈ l, c ∈ chars) :
    findFirstNotOf chars l = none := by
  induction l with
  | nil => rfl
  | cons x xs ih =>
    have hx : x ∈ chars := h x (List.mem_cons_self _ _)
    simp [findFirstNotOf, hx, ih (fun c hc => h c (List.mem_cons_of_mem _ hc))]

theorem findFirstNotOf_append (chars a : List Char) (x : Char) (r : List Char)
    (ha : ∀ c ∈ a, c ∈ chars) (hx : x ∉ chars) :
    findFirstNotOf chars (a ++ x :: r) = some a.length := by
  induction a with
  | nil => simp [findFirstNotOf, hx]
  | cons y ys ih =>
    have hy : y ∈ chars := ha y (List.mem_cons_self _ _)
    simp [findFirstNotOf, hy, ih (fun c hc => ha c (List.mem_cons_of_mem _ hc))]

/-- Every string has a trimmed form. -/
theorem exists_trimsTo (rest : String) : ∃ t, TrimsTo rest t := by
  suffices h : ∀ l : List Char, ∃ t a b : List Char, l = a ++ (t ++ b) ∧
      (∀ c ∈ a, c ∈ [' ', '\t', '\r', '\n']) ∧ (∀ c ∈ b, c ∈ [' ', '\t', '\r', '\n']) ∧
      (t = [] ∨
        ((∃ x mid, t = x :: mid ∧ x ∉ [' ', '\t', '\r', '\n']) ∧
          (∃ front y, t = front ++ [y] ∧ y ∉ [' ', '\t', '\r', '\n']))) by
    obtain ⟨t, a, b, h1, h2, h3, h4⟩ := h rest.data
    exact ⟨⟨t⟩, a, b, h1, h2, h3, h4⟩
  intro l
  induction l with
  | nil => exact ⟨[], [], [], rfl, by simp, by simp, Or.inl rfl⟩
  | cons x l ih =>
    obtain ⟨t, a, b, h1, h2, h3, h4⟩ := ih
    by_cases hx : x ∈ [' ', '\t', '\r', '\n']
    · refine ⟨t, x :: a, b, by rw [h1]; rfl, ?_, h3, h4⟩
      intro c hc
      rcases List.mem_cons.1 hc with rfl | hc
      · exact hx
      · exact h2 c hc
    · rcases h4 with ht | ⟨_, front, y, hlast, hy⟩
      · subst ht
        refine ⟨[x], [], a ++ b, by rw [h1]; simp, by simp, ?_,
          Or.inr ⟨⟨x, [], rfl, hx⟩, ⟨[], x, rfl, hx⟩⟩⟩
        intro c hc
        rcases List.mem_append.1 hc with hc | hc
        · exact h2 c hc
        · exact h3 c hc
      · refine ⟨x :: (a ++ t), [], b, by rw [h1]; simp, by simp, h3,
          Or.inr ⟨⟨x, a ++ t, rfl, hx⟩, ⟨x :: (a ++ front), y, by rw [hlast]; simp, hy⟩⟩⟩

theorem find_isSome_iff (s : String) (c : Char) : (find s c 0).isSome = true ↔ c ∈ s.data := by
  unfold find
  rw [List.drop_zero]
  constructor
  · intro h
    by_contra hc
    rw [findChar_eq_none c _ hc] at h
    simp at h
  · intro h
    obtain ⟨i, hi⟩ := findChar_of_mem h
    rw [hi]; rfl

/-- The `/nick ` branch in terms of the trimmed name: an empty name is refused, a name of more
than 20 characters is reported and cut to 20, a name that then holds the separator is refused,
and any other name goes to `processMessage` as a `NickChange`. -/
theorem nickCommand_eq (E : MessageTypeDecl) (s : ChatServer) (sender : Nat) (rest t : String)
    (ht : TrimsTo rest t) :
    ChatServer.nickCommand E s sender ("/nick " ++ rest) =
      .ok (if t.data = [] then (s.sendMessage sender ChatServer.emptyNickMessage, none)
        else if '|' ∈ t.data.take 20 then
          ((if 20 < t.length then s.sendMessage sender ChatServer.tooLongMessage
            else s).sendMessage sender ChatServer.invalidCharMessage, none)
        else
          (if 20 < t.length then s.sendMessage sender ChatServer.tooLongMessage else s,
            some ⟨E.NickChange, s.getNickname sender, ⟨t.data.take 20⟩, ""⟩)) := by
  obtain ⟨a, b, hrest, ha, hb, hshape⟩ := ht
  have hws : (" \t\r\n" : String).data = [' ', '\t', '\r', '\n'] := rfl
  have hsub : substrFrom ("/nick " ++ rest) 6 = .ok rest := by
    have := substrFrom_at ("/nick " ++ rest) ("/nick " : String).data rest.data
      (String.data_append _ _)
    exact this
  unfold ChatServer.nickCommand
  rw [hsub]
  simp only [Except.bind]
  rcases hshape with hnil | ⟨⟨x, mid, hhead, hx⟩, ⟨front, y, hlast, hy⟩⟩
  · have hall : ∀ c ∈ rest.data, c ∈ [' ', '\t', '\r', '\n'] := by
      rw [hrest, hnil]
      intro c hc
      simp only [List.nil_append, List.mem_append] at hc
      rcases hc with hc | hc
      · exact ha c hc
      · exact hb c hc
    have h1 : find_first_not_of rest " \t\r\n" = none := by
      unfold find_first_not_of
      rw [hws]
      exact findFirstNotOf_all _ _ hall
    rw [h1, if_pos hnil]
  · have hne : t.data ≠ [] := by rw [hhead]; simp
    have hlen : rest.length = a.length + (t.length + b.length) := by
      show rest.data.length = _
      rw [hrest]
      simp only [List.length_append]
      rfl
    have htpos : 0 < t.length := List.length_pos.2 hne
    have h1 : find_first_not_of rest " \t\r\n" = some a.length := by
      unfold find_first_not_of
      rw [hws, hrest, hhead, List.cons_append]
      exact findFirstNotOf_append _ _ _ _ ha hx
    have h2 : find_last_not_of rest " \t\r\n" = some (a.length + t.length - 1) := by
      unfold find_last_not_of
      have hrev : rest.data.reverse = b.reverse ++ y :: (front.reverse ++ a.reverse) := by
        rw [hrest, hlast]; simp
      rw [hws, hrev, findFirstNotOf_append _ _ _ _ (fun c hc => hb c (List.mem_reverse.1 hc)) hy]
      simp only [Option.map_some', List.length_reverse, Option.some.injEq]
      omega
    have h3 : substr rest a.length (a.length + t.length - 1 - a.length + 1) = .ok t := by
      rw [show a.length + t.length - 1 - a.length + 1 = t.data.length from by
        show _ = t.length
        omega]
      exact substr_at rest a t.data b hrest
    have h4 : substr t 0 20 = .ok ⟨t.data.take 20⟩ := by
      unfold substr
      rw [if_pos (Nat.zero_le _), List.drop_zero]
    rw [h1, h2]
    simp only
    rw [h3, if_neg hne]
    simp only
    by_cases hlong : 20 < t.length
    · simp only [hlong, if_true, h4]
      by_cases hbar : '|' ∈ t.data.take 20
      · have hf : (find (⟨t.data.take 20⟩ : String) '|' 0).isSome = true :=
          (find_isSome_iff _ _).2 hbar
        simp only [hf, if_true, hbar]
      · have hf : ¬ (find (⟨t.data.take 20⟩ : String) '|' 0).isSome = true :=
          fun h => hbar ((find_isSome_iff _ _).1 h)
        simp only [hf, if_false, hbar, Bool.false_eq_true]
        rw [ChatServer.sendMessage_getNickname]
    · have htake : t.data.take 20 = t.data := List.take_of_length_le (by
        have : t.data.length = t.length := rfl
        omega)
      have hmk : (⟨t.data⟩ : String) = t := rfl
      simp only [hlong, if_false, htake, hmk]
      by_cases hbar : '|' ∈ t.data
      · have hf : (find t '|' 0).isSome = true := (find_isSome_iff _ _).2 hbar
        simp only [hf, if_true, hbar]
      · have hf : ¬ (find t '|' 0).isSome = true :=
          fun h => hbar ((find_isSome_iff _ _).1 h)
        simp only [hf, if_false, hbar, Bool.false_eq_true]

/-! ### Further claims about the wire form and the dispatch -/

/-- C11 (the claim fails on the code): the content `a|b` of the message with kind 1, sender
`al` and receiver `r` does not survive the wire form, although the sender holds no `|`:
`deserialize` cuts the content at its first `|` and moves the rest into the receiver. -/
theorem C11_content_separator_counterexample :
    '|' ∉ ("al" : String).data ∧
    Message.deserialize MessageType (Message.serialize ⟨1, "al", "a|b", "r"⟩) =
      .ok ⟨1, "al", "a", "b|r"⟩ ∧
    Message.deserialize MessageType (Message.serialize ⟨1, "al", "a|b", "r"⟩) ≠
      .ok ⟨1, "al", "a|b", "r"⟩ := by
  decide

/-- C11 (amended): the wire form tolerates the separator inside the receiver, the last field.
For every message whose kind fits an `int` and whose sender and content contain no `|` (the
receiver may contain `|`), `deserialize(serialize(m))` is `m`: same kind, sender, content and
receiver. -/
theorem C11_roundtrip_without_separator (E : MessageTypeDecl) (m : Message)
    (hmin : INT_MIN ≤ m.type_) (hmax : m.type_ ≤ INT_MAX)
    (hs : '|' ∉ m.sender_.data) (hc : '|' ∉ m.content_.data) :
    Message.deserialize E m.serialize = .ok m := by
  have hk := isDecimalInt_to_string m.type_
  unfold Message.serialize
  exact deserialize_four_fields E _ _ _ _ _ (stoi_decimal hk hmin hmax)
    (separator_not_mem_of_decimal hk) hs hc

theorem C11_roundtrip_without_separator_witness :
    Message.deserialize MessageType (Message.serialize ⟨-3, "al", "hello", "b|r"⟩) =
      .ok ⟨-3, "al", "hello", "b|r"⟩ :=
  C11_roundtrip_without_separator MessageType ⟨-3, "al", "hello", "b|r"⟩ (by decide) (by decide)
    (by decide) (by decide)

/-- C15 (the claim fails on the code): a message with the unrecognised kind 99 gets no reply.
The sender receives nothing, so not exactly one message. -/
theorem C15_unknown_kind_no_reply :
    (99 : Int) ∉ [MessageType.Broadcast, MessageType.Private, MessageType.NickChange,
      MessageType.Connect, MessageType.Disconnect, MessageType.UsersList] ∧
    received
      (ChatServer.mk (fun _ => ⟨true, 4, "User1", true⟩) ⟨[100], by decide⟩
        ⟨[("User1", 100)], by decide⟩ [] true [])
      (ChatServer.processMessage MessageType
        (ChatServer.mk (fun _ => ⟨true, 4, "User1", true⟩) ⟨[100], by decide⟩
          ⟨[("User1", 100)], by decide⟩ [] true [])
        100 ⟨99, "User1", "x", ""⟩) 100 = [] := by
  decide

/-- C15 (amended): for every message whose kind is not one of the recognised kinds,
`processMessage` sends no message to any session, neither to the sender nor to another one (the
event only reaches the log), and leaves the whole state, the registry included, unchanged. -/
theorem C15_unknown_kind_is_ignored (E : MessageTypeDecl) (s : ChatServer) (sender : Nat)
    (msg : Message)
    (h : msg.type_ ∉ [E.Broadcast, E.Private, E.NickChange, E.Connect, E.Disconnect, E.UsersList]) :
    s.processMessage E sender msg = s ∧
    (s.processMessage E sender msg).sent = s.sent ∧
    (∀ q, received s (s.processMessage E sender msg) q = []) ∧
    (s.processMessage E sender msg).clients_ = s.clients_ ∧
    (s.processMessage E sender msg).nicknames_ = s.nicknames_ := by
  rw [processMessage_unknown E s sender msg h]
  refine ⟨rfl, rfl, fun q => ?_, rfl, rfl⟩
  rw [received_of_sent (List.append_nil s.sent).symm q]
  rfl

theorem C15_unknown_kind_is_ignored_witness :
    (ChatServer.processMessage MessageType (ChatServer.init (fun _ => ⟨true, 4, "User1", true⟩) true)
      7 ⟨99, "User1", "x", ""⟩).sent = [] :=
  (C15_unknown_kind_is_ignored MessageType (ChatServer.init (fun _ => ⟨true, 4, "User1", true⟩) true)
    7 ⟨99, "User1", "x", ""⟩ (by decide)).2.1

theorem nick_line_facts (rest : String) :
    ("/nick " ++ rest).data ≠ [] ∧ "/nick " ++ rest ≠ "/leave" ∧
    rfindAtZero ("/nick " ++ rest) "/nick " = true := by
  have hdata : ("/nick " ++ rest).data = '/' :: 'n' :: 'i' :: 'c' :: 'k' :: ' ' :: rest.data :=
    String.data_append _ _
  refine ⟨by rw [hdata]; simp, ?_, ?_⟩
  · intro h
    have := congrArg String.data h
    rw [hdata] at this
    have hl : ("/leave" : String).data = ['/', 'l', 'e', 'a', 'v', 'e'] := rfl
    rw [hl] at this
    simp at this
  · unfold rfindAtZero
    rw [hdata, show ("/nick " : String).length = 6 from rfl,
      show ("/nick " : String).data = ['/', 'n', 'i', 'c', 'k', ' '] from rfl]
    simp

/-- A `/nick ` line is handled by the `/nick ` branch: a request goes to `processMessage`, a
refusal ends the call. -/
theorem processRawMessage_nick (E : MessageTypeDecl) (s : ChatServer) (sender : Nat)
    (rest : String) :
    ChatServer.processRawMessage E s sender ("/nick " ++ rest) =
      (ChatServer.nickCommand E s sender ("/nick " ++ rest)).bind fun r =>
        match r.2 with
        | some msg => .ok (r.1.processMessage E sender msg)
        | none => .ok r.1 := by
  obtain ⟨h1, h2, h3⟩ := nick_line_facts rest
  unfold ChatServer.processRawMessage
  rw [if_neg h1, if_neg h2, if_pos h3]

/-! ### Claims about the command interpreter -/

/-- C12 (the claim fails on the code): the name `aaaaaaaaaaaaaaaaaaaaa|b` (21 letters, the
separator, one letter) needs no trimming and contains `|`, yet `/nick` with it is not refused:
the name is cut to its first 20 characters before the separator is looked for, a `NickChange`
for `aaaaaaaaaaaaaaaaaaaa` is dispatched, and the nickname of the sender and the nickname map
change. -/
theorem C12_separator_after_twenty_counterexample :
    TrimsTo "aaaaaaaaaaaaaaaaaaaaa|b" "aaaaaaaaaaaaaaaaaaaaa|b" ∧
    '|' ∈ ("aaaaaaaaaaaaaaaaaaaaa|b" : String).data ∧
    (ChatServer.nickCommand MessageType
      (ChatServer.mk (fun _ => ⟨true, 4, "User1", true⟩) ⟨[100], by decide⟩
        ⟨[("User1", 100)], by decide⟩ [] true [])
      100 "/nick aaaaaaaaaaaaaaaaaaaaa|b").map Prod.snd =
      .ok (some ⟨MessageType.NickChange, "User1", "aaaaaaaaaaaaaaaaaaaa", ""⟩) ∧
    (ChatServer.processRawMessage MessageType
      (ChatServer.mk (fun _ => ⟨true, 4, "User1", true⟩) ⟨[100], by decide⟩
        ⟨[("User1", 100)], by decide⟩ [] true [])
      100 "/nick aaaaaaaaaaaaaaaaaaaaa|b").map
        (fun r => (r.getNickname 100, r.nicknames_.entries)) =
      .ok ("aaaaaaaaaaaaaaaaaaaa", [("aaaaaaaaaaaaaaaaaaaa", 100)]) := by
  refine ⟨⟨[], [], by decide, by simp, by simp,
    Or.inr ⟨⟨'a', "aaaaaaaaaaaaaaaaaaaa|b".data, by decide, by decide⟩,
      ⟨"aaaaaaaaaaaaaaaaaaaaa|".data, 'b', by decide, by decide⟩⟩⟩, by decide, by decide,
    by decide⟩

/-- C12 (amended): for every line `/nick <name>` whose name, after trimming the surrounding
white space, contains the separator `|` among its first 20 characters (in a name of at most 20
characters: anywhere), `processRawMessage` refuses it: the sender receives the
invalid-character error (after the too-long notice when the trimmed name has more than 20
characters), no other session receives anything, no `NickChange` is dispatched, and every
nickname, the nickname map and the live set are unchanged. -/
theorem C12_nick_separator_rejected (E : MessageTypeDecl) (s : ChatServer) (sender : Nat)
    (rest t : String) (ht : TrimsTo rest t) (hbar : '|' ∈ t.data.take 20) :
    ∃ r, ChatServer.processRawMessage E s sender ("/nick " ++ rest) = .ok r ∧
      ChatServer.nickCommand E s sender ("/nick " ++ rest) = .ok (r, none) ∧
      r.sent = s.sent ++
        ((if 20 < t.length then [(sender, ChatServer.wire ChatServer.tooLongMessage)] else []) ++
          [(sender, ChatServer.wire ChatServer.invalidCharMessage)]) ∧
      received s r sender =
        (if 20 < t.length then [ChatServer.wire ChatServer.tooLongMessage] else []) ++
          [ChatServer.wire ChatServer.invalidCharMessage] ∧
      (∀ q, q ≠ sender → received s r q = []) ∧
      (∀ q, r.getNickname q = s.getNickname q) ∧
      r.nicknames_ = s.nicknames_ ∧ r.clients_ = s.clients_ := by
  have hne : t.data ≠ [] := by
    intro h
    rw [h] at hbar
    simp at hbar
  have hcmd := nickCommand_eq E s sender rest t ht
  rw [if_neg hne, if_pos hbar] at hcmd
  refine ⟨_, ?_, hcmd, ?_⟩
  · rw [processRawMessage_nick, hcmd]
    rfl
  · by_cases hlong : 20 < t.length
    · simp only [hlong, if_true]
      have hsent : ((s.sendMessage sender ChatServer.tooLongMessage).sendMessage sender
          ChatServer.invalidCharMessage).sent = s.sent ++
          ([(sender, ChatServer.wire ChatServer.tooLongMessage)] ++
            [(sender, ChatServer.wire ChatServer.invalidCharMessage)]) := by
        simp [ChatServer.sendMessage]
      refine ⟨hsent, ?_, ?_, ?_, rfl, rfl⟩
      · rw [received_of_sent hsent sender]; simp
      · intro q hq
        rw [received_of_sent hsent q]
        simp [Ne.symm hq]
      · intro q
        rw [ChatServer.sendMessage_getNickname, ChatServer.sendMessage_getNickname]
    · simp only [hlong, if_false]
      have hsent : (s.sendMessage sender ChatServer.invalidCharMessage).sent = s.sent ++
          ([] ++ [(sender, ChatServer.wire ChatServer.invalidCharMessage)]) := by
        simp [ChatServer.sendMessage]
      refine ⟨hsent, ?_, ?_, ?_, rfl, rfl⟩
      · rw [received_of_sent hsent sender]; simp
      · intro q hq
        rw [received_of_sent hsent q]
        simp [Ne.symm hq]
      · intro q
        rw [ChatServer.sendMessage_getNickname]

theorem C12_nick_separator_rejected_witness :
    ∃ r, ChatServer.processRawMessage MessageType
        (ChatServer.init (fun _ => ⟨true, 4, "User1", true⟩) true) 7 ("/nick " ++ "  a|b ") =
        .ok r ∧
      ChatServer.nickCommand MessageType
        (ChatServer.init (fun _ => ⟨true, 4, "User1", true⟩) true) 7 ("/nick " ++ "  a|b ") =
        .ok (r, none) :=
  (C12_nick_separator_rejected MessageType
    (ChatServer.init (fun _ => ⟨true, 4, "User1", true⟩) true) 7 "  a|b " "a|b"
    ⟨[' ', ' '], [' '], by decide, by decide, by decide,
      Or.inr ⟨⟨'a', ['|', 'b'], by decide, by decide⟩, ⟨['a', '|'], 'b', by decide, by decide⟩⟩⟩
    (by decide)).imp fun _ h => ⟨h.1, h.2.1⟩

/-- C13: every `NickChange` request that `processRawMessage` dispatches for a `/nick ` line
carries a name that is non-empty, at most 20 characters long and free of `|`, and the request
is what `processMessage` is called with.  A name that is empty after trimming `" \t\r\n"` is
refused with the empty-nickname error, sent to the sender only, and nothing is dispatched.  A
trimmed name of more than 20 characters is first reported to the sender as too long and is
replaced by its first 20 characters before the separator check, so that a request, if one is
dispatched, carries those 20 characters. -/
theorem C13_nick_requests_are_valid (E : MessageTypeDecl) (s : ChatServer) (sender : Nat)
    (rest : String) :
    (∀ s1 msg, ChatServer.nickCommand E s sender ("/nick " ++ rest) = .ok (s1, some msg) →
      msg.type_ = E.NickChange ∧ msg.content_.data ≠ [] ∧ msg.content_.length ≤ 20 ∧
      '|' ∉ msg.content_.data ∧
      ChatServer.processRawMessage E s sender ("/nick " ++ rest) =
        .ok (s1.processMessage E sender msg)) ∧
    (∃ r, ChatServer.nickCommand E s sender ("/nick " ++ rest) = .ok r) ∧
    (∀ t, TrimsTo rest t → t.data = [] →
      ChatServer.nickCommand E s sender ("/nick " ++ rest) =
        .ok (s.sendMessage sender ChatServer.emptyNickMessage, none) ∧
      ChatServer.processRawMessage E s sender ("/nick " ++ rest) =
        .ok (s.sendMessage sender ChatServer.emptyNickMessage) ∧
      received s (s.sendMessage sender ChatServer.emptyNickMessage) sender =
        [ChatServer.wire ChatServer.emptyNickMessage] ∧
      (∀ q, q ≠ sender →
        received s (s.sendMessage sender ChatServer.emptyNickMessage) q = [])) ∧
    (∀ t, TrimsTo rest t → 20 < t.length →
      ∃ s1 req, ChatServer.nickCommand E s sender ("/nick " ++ rest) = .ok (s1, req) ∧
        (∃ more, s1.sent =
          s.sent ++ (sender, ChatServer.wire ChatServer.tooLongMessage) :: more) ∧
        (req = none ↔ '|' ∈ t.data.take 20) ∧
        (∀ msg, req = some msg → msg.content_ = ⟨t.data.take 20⟩ ∧ msg.content_.length = 20)) := by
  refine ⟨?_, ?_, ?_, ?_⟩
  · intro s1 msg h
    obtain ⟨t, ht⟩ := exists_trimsTo rest
    have hcmd := nickCommand_eq E s sender rest t ht
    rw [h] at hcmd
    have hproc : ChatServer.processRawMessage E s sender ("/nick " ++ rest) =
        .ok (s1.processMessage E sender msg) := by
      rw [processRawMessage_nick, h]
      rfl
    by_cases hnil : t.data = []
    · rw [if_pos hnil] at hcmd
      have := congrArg Prod.snd (Except.ok.inj hcmd)
      simp at this
    · rw [if_neg hnil] at hcmd
      by_cases hbar : '|' ∈ t.data.take 20
      · rw [if_pos hbar] at hcmd
        have := congrArg Prod.snd (Except.ok.inj hcmd)
        simp at this
      · rw [if_neg hbar] at hcmd
        have hmsg : msg = ⟨E.NickChange, s.getNickname sender, ⟨t.data.take 20⟩, ""⟩ := by
          have := congrArg Prod.snd (Except.ok.inj hcmd)
          exact Option.some.inj this
        rw [hmsg]
        refine ⟨rfl, ?_, ?_, hbar, by rw [← hmsg]; exact hproc⟩
        · show t.data.take 20 ≠ []
          cases hd : t.data with
          | nil => exact absurd hd hnil
          | cons x xs => simp
        · show (t.data.take 20).length ≤ 20
          exact List.length_take_le _ _
  · obtain ⟨t, ht⟩ := exists_trimsTo rest
    exact ⟨_, nickCommand_eq E s sender rest t ht⟩
  · intro t ht hnil
    have hcmd := nickCommand_eq E s sender rest t ht
    rw [if_pos hnil] at hcmd
    have hsent : (s.sendMessage sender ChatServer.emptyNickMessage).sent =
        s.sent ++ [(sender, ChatServer.wire ChatServer.emptyNickMessage)] := rfl
    refine ⟨hcmd, ?_, ?_, ?_⟩
    · rw [processRawMessage_nick, hcmd]
      rfl
    · rw [received_of_sent hsent sender]; simp
    · intro q hq
      rw [received_of_sent hsent q]
      simp [Ne.symm hq]
  · intro t ht hlong
    have hne : t.data ≠ [] := by
      intro h
      have : t.length = 0 := by
        show t.data.length = 0
        rw [h]; rfl
      omega
    have hcmd := nickCommand_eq E s sender rest t ht
    rw [if_neg hne] at hcmd
    simp only [hlong, if_true] at hcmd
    have hlen : (t.data.take 20).length = 20 := by
      rw [List.length_take]
      have : t.data.length = t.length := rfl
      omega
    by_cases hbar : '|' ∈ t.data.take 20
    · rw [if_pos hbar] at hcmd
      refine ⟨_, none, hcmd, ⟨[(sender, ChatServer.wire ChatServer.invalidCharMessage)], ?_⟩,
        ⟨fun _ => hbar, fun _ => rfl⟩, fun msg h => by cases h⟩
      simp [ChatServer.sendMessage]
    · rw [if_neg hbar] at hcmd
      refine ⟨_, _, hcmd, ⟨[], rfl⟩, ⟨fun h => Option.noConfusion h, fun h => absurd h hbar⟩, ?_⟩
      intro msg h
      cases h
      exact ⟨rfl, hlen⟩

/-- The line `/pm <name>` without a space after the name is not handled by the `/pm ` branch:
it reaches the end of `processRawMessage` and is broadcast as chat text to every session but
the sender. -/
theorem processRawMessage_pm_without_text (E : MessageTypeDecl) (s : ChatServer) (sender : Nat)
    (name : String) (hname : ' ' ∉ name.data) :
    ChatServer.processRawMessage E s sender ("/pm " ++ name) =
      .ok (s.broadcast ("[" ++ s.getNickname sender ++ "] " ++ ("/pm " ++ name)) (some sender)) := by
  have hdata : ("/pm " ++ name).data = '/' :: 'p' :: 'm' :: ' ' :: name.data :=
    String.data_append _ _
  have h1 : ("/pm " ++ name).data ≠ [] := by rw [hdata]; simp
  have hne : ∀ lit : String, lit.data.take 2 ≠ ['/', 'p'] → "/pm " ++ name ≠ lit := by
    intro lit hlit h
    apply hlit
    rw [← h, hdata]
    rfl
  have h2 : "/pm " ++ name ≠ "/leave" := hne _ (by decide)
  have h3 : ¬ rfindAtZero ("/pm " ++ name) "/nick " = true := by
    unfold rfindAtZero
    rw [hdata, show ("/nick " : String).length = 6 from rfl,
      show ("/nick " : String).data = ['/', 'n', 'i', 'c', 'k', ' '] from rfl]
    cases hn : name.data with
    | nil => simp
    | cons x xs => cases xs <;> simp
  have h4 : rfindAtZero ("/pm " ++ name) "/pm " = true := by
    unfold rfindAtZero
    rw [hdata, show ("/pm " : String).length = 4 from rfl,
      show ("/pm " : String).data = ['/', 'p', 'm', ' '] from rfl]
    simp
  have h5 : find ("/pm " ++ name) ' ' 4 = none := by
    have := find_at ("/pm " ++ name) ' ' ['/', 'p', 'm', ' '] name.data hdata
    rw [findChar_eq_none _ _ hname] at this
    exact this
  have h6 : "/pm " ++ name ≠ "/users" := hne _ (by decide)
  have hb := (ChatServer.decl_ne E)
  unfold ChatServer.processRawMessage
  rw [if_neg h1, if_neg h2, if_neg h3, if_pos h4, h5]
  simp only
  unfold ChatServer.plainCommand
  rw [if_neg h6]
  unfold ChatServer.processMessage
  rw [if_pos rfl]

/-- C14 (the code departs from the claim): the line `/pm Bob` starts with `/pm ` and has no
second token, yet it is no no-op towards other sessions.  Sent by `User1` (session 100) it is
delivered to the other live session 200 as the chat line `[User1] /pm Bob`: the raw command
text is forwarded. -/
theorem C14_pm_without_text_is_broadcast :
    (ChatServer.processRawMessage MessageType
      (ChatServer.mk
        (fun q => if q = 100 then ⟨true, 4, "User1", true⟩ else ⟨true, 5, "User2", true⟩)
        ⟨[100, 200], by decide⟩ ⟨[("User1", 100), ("User2", 200)], by decide⟩ [] true [])
      100 "/pm Bob").map (fun r => r.sent) =
      .ok [(200, ChatServer.wire "[User1] /pm Bob")] ∧
    (ChatServer.processRawMessage MessageType
      (ChatServer.mk
        (fun q => if q = 100 then ⟨true, 4, "User1", true⟩ else ⟨true, 5, "User2", true⟩)
        ⟨[100, 200], by decide⟩ ⟨[("User1", 100), ("User2", 200)], by decide⟩ [] true [])
      100 "/pm Bob").map
        (fun r => received
          (ChatServer.mk
            (fun q => if q = 100 then ⟨true, 4, "User1", true⟩ else ⟨true, 5, "User2", true⟩)
            ⟨[100, 200], by decide⟩ ⟨[("User1", 100), ("User2", 200)], by decide⟩ [] true [])
          r 200) =
      .ok ["\r[User1] /pm Bob\n"] := by
  refine ⟨by decide, by decide⟩

/-! ### The worker of a session -/

namespace ChatServer

theorem processMessage_clients (E : MessageTypeDecl) (s : ChatServer) (sender : Nat)
    (msg : Message) : (s.processMessage E sender msg).clients_ = s.clients_ := by
  by_cases hB : msg.type_ = E.Broadcast
  · unfold processMessage
    rw [if_pos hB]
    exact broadcast_clients _ _ _
  by_cases hP : msg.type_ = E.Private
  · rw [processMessage_private E s sender msg hP]
    split <;> rfl
  by_cases hN : msg.type_ = E.NickChange
  · rw [processMessage_nickChange E s sender msg hN]
    split_ifs
    · rfl
    · rw [broadcast_clients]; rfl
    · rfl
  unfold processMessage
  rw [if_neg hB, if_neg hP, if_neg hN]
  split_ifs
  · exact broadcast_clients _ _ _
  · rfl
  · rfl

theorem plainCommand_clients (E : MessageTypeDecl) (s : ChatServer) (sender : Nat)
    (raw_msg : String) : (plainCommand E s sender raw_msg).clients_ = s.clients_ := by
  unfold plainCommand
  split_ifs <;> exact processMessage_clients _ _ _ _

end ChatServer

theorem eq_append_of_rfindAtZero {s p : String} (h : rfindAtZero s p = true) :
    s = p ++ ⟨s.data.drop p.length⟩ := by
  unfold rfindAtZero at h
  have h2 : s.data.take p.length = p.data := by simpa using h
  apply String.ext
  rw [String.data_append]
  show s.data = p.data ++ s.data.drop p.length
  rw [← h2, List.take_append_drop]

namespace ChatServer

/-- The command interpreter never touches the live set. -/
theorem processRawMessage_clients (E : MessageTypeDecl) (s : ChatServer) (sender : Nat)
    (raw_msg : String) (r : ChatServer) (h : processRawMessage E s sender raw_msg = .ok r) :
    r.clients_ = s.clients_ := by
  unfold processRawMessage at h
  split_ifs at h with h1 h2 h3 h4
  · rw [← Except.ok.inj h]
  · rw [← Except.ok.inj h]; rfl
  · have hraw := eq_append_of_rfindAtZero h3
    obtain ⟨t, ht⟩ := exists_trimsTo ⟨raw_msg.data.drop ("/nick " : String).length⟩
    have hcmd := nickCommand_eq E s sender _ t ht
    rw [← hraw] at hcmd
    rw [hcmd] at h
    simp only [Except.bind] at h
    split_ifs at h with c1 c2 c3 c4
    · rw [← Except.ok.inj h]; rfl
    · rw [← Except.ok.inj h]; rfl
    · rw [← Except.ok.inj h]; rfl
    · rw [← Except.ok.inj h, processMessage_clients]; rfl
    · rw [← Except.ok.inj h, processMessage_clients]
  · split at h
    · rename_i space_pos _
      cases hs1 : substr raw_msg 4 (space_pos - 4) with
      | error e => rw [hs1] at h; cases h
      | ok receiver =>
        cases hs2 : substrFrom raw_msg (space_pos + 1) with
        | error e => rw [hs1, hs2] at h; cases h
        | ok content =>
          rw [hs1, hs2] at h
          rw [← Except.ok.inj h, processMessage_clients]
    · rw [← Except.ok.inj h, plainCommand_clients]
  · rw [← Except.ok.inj h, plainCommand_clients]

/-- The read loop of a session never touches the live set. -/
theorem runLoop_clients (E : MessageTypeDecl) (self : Nat) (world : List Iteration)
    (s r : ChatServer) (h : runLoop E self world s = some r) : r.clients_ = s.clients_ := by
  induction world generalizing s with
  | nil =>
    unfold runLoop at h
    by_cases hact : (s.heap self).active_ = true
    · rw [if_pos hact] at h; cases h
    · rw [if_neg hact] at h
      rw [← Option.some.inj h]
  | cons it rest ih =>
    unfold runLoop at h
    by_cases hact : (s.heap self).active_ = true
    · have hprompt : (s.sendPrompt self it.prompt_sent).clients_ = s.clients_ := by
        unfold sendPrompt
        by_cases hp : (s.heap self).prompt_pending_ = true
        · rw [if_neg (not_not.2 hp)]
          cases it.prompt_sent <;> rfl
        · rw [if_pos hp]
      rw [if_neg (not_not.2 hact)] at h
      dsimp only at h
      cases hev : it.event with
      | selectError eintr =>
        rw [hev] at h
        dsimp only at h
        cases eintr with
        | true => rw [if_pos rfl] at h; rw [ih _ h, hprompt]
        | false =>
          rw [if_neg (by simp)] at h
          rw [← Option.some.inj h, hprompt]
      | selectTimeout =>
        rw [hev] at h
        dsimp only at h
        rw [ih _ h, hprompt]
      | recv bytes_received buffer =>
        rw [hev] at h
        dsimp only at h
        by_cases hb : bytes_received ≤ 0
        · rw [if_pos hb] at h
          rw [← Option.some.inj h]; exact hprompt
        · rw [if_neg hb] at h
          by_cases hne : (eraseRemove (eraseRemove buffer '\n') '\r').data ≠ []
          · rw [if_pos hne] at h
            by_cases hleave : eraseRemove (eraseRemove buffer '\n') '\r' = "/leave"
            · rw [if_pos hleave] at h
              rw [← Option.some.inj h]; exact hprompt
            · rw [if_neg hleave] at h
              cases hraw : processRawMessage E (s.sendPrompt self it.prompt_sent) self
                  (eraseRemove (eraseRemove buffer '\n') '\r') with
              | error e =>
                rw [hraw] at h
                dsimp only at h
                rw [← Option.some.inj h, hprompt]
              | ok s2 =>
                rw [hraw] at h
                dsimp only at h
                rw [ih _ h]
                show s2.clients_ = s.clients_
                rw [processRawMessage_clients E _ self _ s2 hraw, hprompt]
          · rw [if_neg hne] at h
            rw [ih _ h, hprompt]
    · rw [if_pos hact] at h
      rw [← Option.some.inj h]

theorem scheduleClientRemoval_frame (s : ChatServer) (c : Nat) :
    (s.scheduleClientRemoval c).clients_ = s.clients_ ∧
    (s.scheduleClientRemoval c).nicknames_ = s.nicknames_ ∧
    (s.scheduleClientRemoval c).heap = s.heap ∧
    (s.scheduleClientRemoval c).sent = s.sent := by
  unfold scheduleClientRemoval
  by_cases h : c ∈ s.clients_to_remove_
  · rw [if_neg (not_not.2 h)]
    exact ⟨rfl, rfl, rfl, rfl⟩
  · rw [if_pos h]
    exact ⟨rfl, rfl, rfl, rfl⟩

/-- The whole worker of a session, read loop and exit path, never touches the live set. -/
theorem run_clients (E : MessageTypeDecl) (s : ChatServer) (self : Nat) (world : List Iteration)
    (r : ChatServer) (h : run E s self world = some r) : r.clients_ = s.clients_ := by
  unfold run at h
  cases hl : runLoop E self world s with
  | none => rw [hl] at h; cases h
  | some s1 =>
    rw [hl] at h
    rw [← Option.some.inj h, (scheduleClientRemoval_frame _ _).1]
    exact runLoop_clients E self world s s1 hl

/-- A read that reports a closed, reset or failed connection ends `run` with the session
marked inactive and scheduled for removal, and with its socket handle as it was: `stopClient`
finds `active_` already cleared and releases nothing. -/
theorem run_read_failed (E : MessageTypeDecl) (s : ChatServer) (self : Nat) (prompt_sent : Bool)
    (bytes_received : Int) (buffer : String) (rest : List Iteration)
    (hact : (s.heap self).active_ = true) (hbytes : bytes_received ≤ 0) :
    ∃ r, run E s self (⟨prompt_sent, .recv bytes_received buffer⟩ :: rest) = some r ∧
      (r.heap self).active_ = false ∧
      (r.heap self).client_socket_ = (s.heap self).client_socket_ ∧
      r.clients_to_remove_ =
        (if self ∈ s.clients_to_remove_ then s.clients_to_remove_
          else s.clients_to_remove_ ++ [self]) := by
  have hloop : runLoop E self (⟨prompt_sent, .recv bytes_received buffer⟩ :: rest) s =
      some ((s.sendPrompt self prompt_sent).clearActive self) := by
    unfold runLoop
    rw [if_neg (by simp [hact])]
    simp only [hbytes, if_true]
  have hstop : (((s.sendPrompt self prompt_sent).clearActive self).stopClient self).heap self =
      ((s.sendPrompt self prompt_sent).clearActive self).heap self := by
    unfold stopClient clearActive ClientHandler.stopClient
    simp
  have hsock : (((s.sendPrompt self prompt_sent).clearActive self).heap self).client_socket_ =
      (s.heap self).client_socket_ := by
    unfold clearActive sendPrompt
    split_ifs <;> simp
  have hinactive : (((s.sendPrompt self prompt_sent).clearActive self).heap self).active_ =
      false := by
    unfold clearActive
    simp
  have hpend : ((s.sendPrompt self prompt_sent).clearActive self).clients_to_remove_ =
      s.clients_to_remove_ := by
    unfold clearActive sendPrompt
    split_ifs <;> rfl
  refine ⟨_, by unfold run; rw [hloop]; rfl, ?_, ?_, ?_⟩
  · rw [(scheduleClientRemoval_frame _ _).2.2.1, hstop, hinactive]
  · rw [(scheduleClientRemoval_frame _ _).2.2.1, hstop, hsock]
  · have hpend2 : (((s.sendPrompt self prompt_sent).clearActive self).stopClient
        self).clients_to_remove_ = s.clients_to_remove_ := hpend
    rw [scheduleClientRemoval_pending, hpend2]

end ChatServer

namespace ChatServer

/-- The drain takes every pending session out of the live set. -/
theorem processScheduledRemovals_not_mem (dangling : ChatServer → Nat → String)
    (s : ChatServer) (c : Nat) (h : c ∈ s.clients_to_remove_) :
    c ∉ (s.processScheduledRemovals dangling).clients_.elems := by
  obtain ⟨front, back, hsplit⟩ := List.append_of_mem h
  unfold processScheduledRemovals
  rw [hsplit, List.foldl_append, List.foldl_cons]
  apply foldl_clientDisconnected_not_mem
  rw [clientDisconnected_clients, PtrSet.mem_erase]
  exact fun hc => hc.1 rfl

theorem stopClient_heap_self (s : ChatServer) (self : Nat) :
    ((s.stopClient self).heap self).active_ = false ∧
    ((s.stopClient self).heap self).nickname_ = (s.heap self).nickname_ ∧
    ((s.stopClient self).heap self).prompt_pending_ = (s.heap self).prompt_pending_ := by
  unfold stopClient ClientHandler.stopClient
  simp only [if_true]
  by_cases ha : (s.heap self).active_ = true
  · rw [if_pos ha]
    split_ifs <;> exact ⟨rfl, rfl, rfl⟩
  · rw [if_neg ha]
    exact ⟨by simpa using ha, rfl, rfl⟩

end ChatServer

/-! ### Claims about the worker of a session -/

/-- C16 (the code departs from the claim): session 100 is active on socket 4 and its read
reports an orderly close (`recv` returns 0) or an error (`recv` returns -1).  When
`ClientHandler::run` returns, the session is inactive and pending for removal exactly once, but
its transport has not been released: the handle is still 4, not -1.  The loop clears `active_`
itself before it leaves, so the `stopClient()` that follows finds the session already inactive
and skips `shutdown` and `close`; on the still active session `stopClient()` does set the
handle to -1. -/
theorem C16_read_end_keeps_socket :
    (ChatServer.run MessageType
      (ChatServer.mk (fun _ => ⟨true, 4, "User1", true⟩) ⟨[100], by decide⟩
        ⟨[("User1", 100)], by decide⟩ [] true [])
      100 [⟨true, ChatServer.ReadEvent.recv 0 ""⟩]).map
        (fun r => ((r.heap 100).active_, (r.heap 100).client_socket_, r.clients_to_remove_)) =
      some (false, 4, [100]) ∧
    (ChatServer.run MessageType
      (ChatServer.mk (fun _ => ⟨true, 4, "User1", true⟩) ⟨[100], by decide⟩
        ⟨[("User1", 100)], by decide⟩ [] true [])
      100 [⟨true, ChatServer.ReadEvent.recv (-1) ""⟩]).map
        (fun r => ((r.heap 100).active_, (r.heap 100).client_socket_, r.clients_to_remove_)) =
      some (false, 4, [100]) ∧
    (ClientHandler.stopClient ⟨true, 4, "User1", true⟩).client_socket_ = -1 := by
  refine ⟨by decide, by decide, by decide⟩

/-- C17: a session never removes itself.  Its exit path, `stopClient()` followed by
`scheduleClientRemoval(self)`, leaves the live set, the nickname map, the transcript, the
running flag and every other object unchanged; of the session's own object only the liveness
flag and the socket handle can change (nickname and prompt flag stay), and the pending list
gains the session unless it is pending already.  More generally nothing the worker does in
`run`, whatever it reads, changes the live set.  The session leaves the live set when
`processScheduledRemovals` drains the pending list, or when `stopClients` or `stop` clear the
registry at shutdown. -/
theorem C17_session_never_removes_itself (E : MessageTypeDecl) (s : ChatServer) (self : Nat) :
    ((s.stopClient self).scheduleClientRemoval self).clients_ = s.clients_ ∧
    ((s.stopClient self).scheduleClientRemoval self).nicknames_ = s.nicknames_ ∧
    ((s.stopClient self).scheduleClientRemoval self).sent = s.sent ∧
    ((s.stopClient self).scheduleClientRemoval self).running_ = s.running_ ∧
    (∀ q, q ≠ self → ((s.stopClient self).scheduleClientRemoval self).heap q = s.heap q) ∧
    (((s.stopClient self).scheduleClientRemoval self).heap self).nickname_ =
      (s.heap self).nickname_ ∧
    (((s.stopClient self).scheduleClientRemoval self).heap self).prompt_pending_ =
      (s.heap self).prompt_pending_ ∧
    (((s.stopClient self).scheduleClientRemoval self).heap self).active_ = false ∧
    ((s.stopClient self).scheduleClientRemoval self).clients_to_remove_ =
      (if self ∈ s.clients_to_remove_ then s.clients_to_remove_
        else s.clients_to_remove_ ++ [self]) ∧
    (∀ world r, ChatServer.run E s self world = some r → r.clients_ = s.clients_) ∧
    (∀ dangling : ChatServer → Nat → String,
      self ∉ (((s.stopClient self).scheduleClientRemoval
        self).processScheduledRemovals dangling).clients_.elems) ∧
    s.stopClients.clients_.elems = [] ∧
    (s.running_ = true → s.stop.clients_.elems = []) := by
  obtain ⟨f1, f2, f3, f4⟩ := ChatServer.scheduleClientRemoval_frame (s.stopClient self) self
  obtain ⟨g1, g2, g3⟩ := ChatServer.stopClient_heap_self s self
  have hpend : ((s.stopClient self).scheduleClientRemoval self).clients_to_remove_ =
      (if self ∈ s.clients_to_remove_ then s.clients_to_remove_
        else s.clients_to_remove_ ++ [self]) :=
    ChatServer.scheduleClientRemoval_pending (s.stopClient self) self
  refine ⟨f1, f2, f4, ?_, ?_, ?_, ?_, ?_, hpend, ?_, ?_, rfl, ?_⟩
  · rw [ChatServer.scheduleClientRemoval_running]; rfl
  · intro q hq
    rw [f3]
    unfold ChatServer.stopClient
    simp [hq]
  · rw [f3]; exact g2
  · rw [f3]; exact g3
  · rw [f3]; exact g1
  · exact fun world r h => ChatServer.run_clients E s self world r h
  · intro dangling
    apply ChatServer.processScheduledRemovals_not_mem
    rw [hpend]
    split_ifs with h
    · exact h
    · simp
  · intro hrun
    unfold ChatServer.stop
    rw [if_neg (by simp [hrun])]
    rfl

end Chat
